import Mathlib

/-!
Verification of the QC accumulation and block-extraction engine of
`pecos/monitoring.py` (class `PerformanceMonitoring`).

The shallow embedding below translates the source into Lean:
* pandas timestamps are `Nat`, numeric cells are `Option Rat`
  (`none` = NaN/absent),
* a boolean failure matrix is a list of named boolean columns,
* the engine state (`self.df`, `self.trans`, `self.tfilter`,
  `self.test_results`) is the structure `Engine`,
* Python code that can raise returns `Except Unit _`,
* in-place mutation of a caller's argument (the `bound` list) is modelled by
  returning the post-call state of that list alongside the engine.
-/

namespace Pecos

/-! ## Block extraction (source: `_append_test_results`, lines 174-198)

The source computes, over the transposed mask (`order = 'col'`),
`start_nans_mask = hstack(m[:,0], ~m[:,:-1] & m[:,1:])` and
`stop_nans_mask = hstack(m[:,:-1] & ~m[:,1:], m[:,-1])`, then pairs the
`np.where` coordinates of the two masks positionally.  Per column this is:
a start flag at `j` iff `m[j] ∧ (j = 0 ∨ ¬m[j-1])`, a stop flag at `j` iff
`m[j] ∧ (j = last ∨ ¬m[j+1])`. -/

/-- Start-edge flags of one boolean column; `prev` is the cell just before the
current suffix (the implicit `false` sentinel at index `-1` at top level).
Mirrors `start_nans_mask` of `_append_test_results` for a single column. -/
def startsFrom (prev : Bool) : List Bool → List Bool
  | [] => []
  | b :: rest => (!prev && b) :: startsFrom b rest

/-- Stop-edge flags of one boolean column (the sentinel at index `N` is
`false`).  Mirrors `stop_nans_mask` of `_append_test_results` for a single
column. -/
def stops : List Bool → List Bool
  | [] => []
  | b :: rest => (b && !(rest.headD false)) :: stops rest

/-- Indices (counting from `i`) of the `true` entries of a boolean list, in
ascending order; this is `np.where` along one row of the transposed mask. -/
def trueIdxFrom (i : Nat) : List Bool → List Nat
  | [] => []
  | b :: rest => if b then i :: trueIdxFrom (i + 1) rest else trueIdxFrom (i + 1) rest

/-- The (start index, stop index) run pairs of one column, pairing the k-th
start with the k-th stop exactly as the source's positional pairing of the
`np.where` outputs. -/
def extractRunsCol (col : List Bool) : List (Nat × Nat) :=
  List.zip (trueIdxFrom 0 (startsFrom false col)) (trueIdxFrom 0 (stops col))

/-- Reference scanner: the runs of `true` cells of a column, computed by a
direct left-to-right scan.  `st = some s` means a run that began at index `s`
is open on entry; `i` is the index of the head of the remaining list.  Used
only in proofs (the executable artifact is `extractRunsCol`). -/
def scan (i : Nat) (st : Option Nat) : List Bool → List (Nat × Nat)
  | [] => match st with
    | none => []
    | some s => [(s, i - 1)]
  | b :: rest => match st, b with
    | none, false => scan (i + 1) none rest
    | none, true => scan (i + 1) (some i) rest
    | some s, true => scan (i + 1) (some s) rest
    | some s, false => (s, i - 1) :: scan (i + 1) none rest

/-- The start indices produced by `scan` are exactly the raised start-edge
flags (with the pending start prepended when a run is open). -/
theorem scan_map_fst : ∀ (col : List Bool) (i : Nat) (st : Option Nat),
    (scan i st col).map Prod.fst =
      (match st with
        | none => trueIdxFrom i (startsFrom false col)
        | some s => s :: trueIdxFrom i (startsFrom true col)) := by
  intro col
  induction col with
  | nil =>
    intro i st
    cases st <;> simp [scan, trueIdxFrom, startsFrom]
  | cons b rest ih =>
    intro i st
    cases st with
    | none =>
      cases b <;> simp [scan, trueIdxFrom, startsFrom, ih]
    | some s =>
      cases b <;> simp [scan, trueIdxFrom, startsFrom, ih]

/-- The stop indices produced by `scan` are exactly the raised stop-edge
flags, provided an open run can only be open while the head cell is `true`. -/
theorem scan_map_snd : ∀ (col : List Bool) (i : Nat) (st : Option Nat),
    (st.isSome → col.headD false = true) →
    (scan i st col).map Prod.snd = trueIdxFrom i (stops col) := by
  intro col
  induction col with
  | nil =>
    intro i st h
    cases st with
    | none => simp [scan, trueIdxFrom, stops]
    | some s => simp at h
  | cons b rest ih =>
    intro i st h
    cases st with
    | none =>
      cases b with
      | false =>
        cases rest with
        | nil => simp [scan, trueIdxFrom, stops, ih]
        | cons b2 r2 =>
          cases b2 <;>
            simpa [scan, trueIdxFrom, stops] using ih (i + 1) none (by simp)
      | true =>
        cases rest with
        | nil => simp [scan, trueIdxFrom, stops]
        | cons b2 r2 =>
          cases b2 with
          | false =>
            have h2 := ih (i + 1) none (by simp)
            simp [scan, trueIdxFrom, stops] at h2
            simp [scan, trueIdxFrom, stops, h2]
          | true =>
            have h2 := ih (i + 1) (some i) (by simp)
            simpa [scan, trueIdxFrom, stops] using h2
    | some s =>
      have hb : b = true := by simpa using h rfl
      subst hb
      cases rest with
      | nil => simp [scan, trueIdxFrom, stops]
      | cons b2 r2 =>
        cases b2 with
        | false =>
          have h2 := ih (i + 1) none (by simp)
          simp [scan, trueIdxFrom, stops] at h2
          simp [scan, trueIdxFrom, stops, h2]
        | true =>
          have h2 := ih (i + 1) (some s) (by simp)
          simpa [scan, trueIdxFrom, stops] using h2

/-- Zipping the first and second projections of a pair list reassembles it. -/
theorem zip_fst_snd : ∀ (l : List (Nat × Nat)),
    List.zip (l.map Prod.fst) (l.map Prod.snd) = l := by
  intro l
  induction l with
  | nil => rfl
  | cons p rest ih => simp [List.zip, ih]

/-- The source's shifted-mask pairing computes exactly the runs of the direct
scanner. -/
theorem extractRunsCol_eq_scan (col : List Bool) :
    extractRunsCol col = scan 0 none col := by
  have h1 := scan_map_fst col 0 none
  have h2 := scan_map_snd col 0 none (by simp)
  calc extractRunsCol col
      = List.zip ((scan 0 none col).map Prod.fst) ((scan 0 none col).map Prod.snd) := by
        rw [extractRunsCol, h1, h2]
    _ = scan 0 none col := zip_fst_snd _

/-- Validity of the scanner state: an open run began strictly before the
current position. -/
def stOk (i : Nat) : Option Nat → Prop
  | none => True
  | some s => s < i

/-- Every run produced by the scanner is well formed: its start does not
precede the pending start (or the current position), start ≤ stop, and stop
lies inside the processed region. -/
theorem scan_bounds : ∀ (col : List Bool) (i : Nat) (st : Option Nat),
    stOk i st → ∀ p ∈ scan i st col,
      p.1 ≤ p.2 ∧ p.2 < i + col.length ∧
        (match st with
          | none => i ≤ p.1
          | some s => p.1 = s ∨ i ≤ p.1) := by
  intro col
  induction col with
  | nil =>
    intro i st hst p hp
    cases st with
    | none => simp [scan] at hp
    | some s =>
      simp [scan] at hp
      subst hp
      simp [stOk] at hst
      refine ⟨by omega, by omega, Or.inl rfl⟩
  | cons b rest ih =>
    intro i st hst p hp
    cases st with
    | none =>
      cases b with
      | false =>
        have := ih (i + 1) none trivial p (by simpa [scan] using hp)
        refine ⟨this.1, by have := this.2.1; simp; omega, ?_⟩
        have := this.2.2
        simp at this ⊢
        omega
      | true =>
        have := ih (i + 1) (some i) (by simp [stOk]) p (by simpa [scan] using hp)
        refine ⟨this.1, by have := this.2.1; simp; omega, ?_⟩
        have h3 := this.2.2
        simp at h3 ⊢
        omega
    | some s =>
      simp [stOk] at hst
      cases b with
      | true =>
        have := ih (i + 1) (some s) (by simp [stOk]; omega) p (by simpa [scan] using hp)
        refine ⟨this.1, by have := this.2.1; simp; omega, ?_⟩
        have h3 := this.2.2
        simp at h3 ⊢
        omega
      | false =>
        simp [scan] at hp
        rcases hp with hp | hp
        · subst hp
          refine ⟨by omega, by simp; omega, Or.inl rfl⟩
        · have := ih (i + 1) none trivial p hp
          refine ⟨this.1, by have := this.2.1; simp; omega, ?_⟩
          have h3 := this.2.2
          simp at h3 ⊢
          omega

/-- The scanner's runs are strictly ordered: each run stops strictly before
the next one starts, hence the runs are pairwise non-overlapping. -/
theorem scan_pairwise : ∀ (col : List Bool) (i : Nat) (st : Option Nat),
    stOk i st → (scan i st col).Pairwise (fun p q => p.2 < q.1) := by
  intro col
  induction col with
  | nil =>
    intro i st hst
    cases st <;> simp [scan]
  | cons b rest ih =>
    intro i st hst
    cases st with
    | none =>
      cases b with
      | false => simpa [scan] using ih (i + 1) none trivial
      | true => simpa [scan] using ih (i + 1) (some i) (by simp [stOk])
    | some s =>
      simp [stOk] at hst
      cases b with
      | true => simpa [scan] using ih (i + 1) (some s) (by simp [stOk]; omega)
      | false =>
        simp [scan]
        refine ⟨?_, ih (i + 1) none trivial⟩
        intro a b hab
        have := (scan_bounds rest (i + 1) none trivial (a, b) hab).2.2
        simp at this
        omega

/-- Cells inside a scanner run (within the unprocessed region) are `true`. -/
theorem scan_true : ∀ (col : List Bool) (i : Nat) (st : Option Nat),
    stOk i st → ∀ p ∈ scan i st col, ∀ j, i ≤ j → p.1 ≤ j → j ≤ p.2 →
      col.getD (j - i) false = true := by
  intro col
  induction col with
  | nil =>
    intro i st hst p hp j hij hpj hjp
    cases st with
    | none => simp [scan] at hp
    | some s =>
      simp [scan] at hp
      subst hp
      simp [stOk] at hst
      simp at hjp
      omega
  | cons b rest ih =>
    intro i st hst p hp j hij hpj hjp
    cases st with
    | none =>
      cases b with
      | false =>
        simp [scan] at hp
        have hb := (scan_bounds rest (i + 1) none trivial p hp).2.2
        simp at hb
        have hj1 : i + 1 ≤ j := by omega
        have := ih (i + 1) none trivial p hp j hj1 hpj hjp
        have hji : j - i = (j - (i + 1)) + 1 := by omega
        simpa [hji] using this
      | true =>
        rcases Nat.eq_or_lt_of_le hij with h | h
        · simp [← h]
        · have hj1 : i + 1 ≤ j := by omega
          have := ih (i + 1) (some i) (by simp [stOk]) p (by simpa [scan] using hp)
            j hj1 hpj hjp
          have hji : j - i = (j - (i + 1)) + 1 := by omega
          simpa [hji] using this
    | some s =>
      simp [stOk] at hst
      cases b with
      | true =>
        rcases Nat.eq_or_lt_of_le hij with h | h
        · simp [← h]
        · have hj1 : i + 1 ≤ j := by omega
          have := ih (i + 1) (some s) (by simp [stOk]; omega) p
            (by simpa [scan] using hp) j hj1 hpj hjp
          have hji : j - i = (j - (i + 1)) + 1 := by omega
          simpa [hji] using this
      | false =>
        simp [scan] at hp
        rcases hp with hp | hp
        · subst hp
          simp at hjp
          omega
        · have hb := (scan_bounds rest (i + 1) none trivial p hp).2.2
          simp at hb
          have hj1 : i + 1 ≤ j := by omega
          have := ih (i + 1) none trivial p hp j hj1 hpj hjp
          have hji : j - i = (j - (i + 1)) + 1 := by omega
          simpa [hji] using this

/-- Sum of the inclusive lengths of a run list. -/
def sumLens (rs : List (Nat × Nat)) : Nat :=
  (rs.map (fun p => p.2 - p.1 + 1)).sum

/-- The scanner's run lengths sum to the number of `true` cells (plus the
cells of the pending run already consumed). -/
theorem scan_count : ∀ (col : List Bool) (i : Nat) (st : Option Nat),
    stOk i st →
    sumLens (scan i st col) =
      (match st with | none => 0 | some s => i - s) + col.count true := by
  intro col
  induction col with
  | nil =>
    intro i st hst
    cases st with
    | none => simp [scan, sumLens]
    | some s =>
      simp [stOk] at hst
      simp [scan, sumLens]
      omega
  | cons b rest ih =>
    intro i st hst
    cases st with
    | none =>
      cases b with
      | false =>
        simpa [scan, List.count_cons] using ih (i + 1) none trivial
      | true =>
        have := ih (i + 1) (some i) (by simp [stOk])
        simp [scan, List.count_cons] at this ⊢
        omega
    | some s =>
      simp [stOk] at hst
      cases b with
      | true =>
        have := ih (i + 1) (some s) (by simp [stOk]; omega)
        simp [scan, List.count_cons] at this ⊢
        omega
      | false =>
        have := ih (i + 1) none trivial
        simp [scan, sumLens, List.count_cons] at this ⊢
        omega

/-- The pending run of an open scanner state is eventually emitted, starting
at the pending start and covering at least the consumed prefix. -/
theorem scan_open : ∀ (col : List Bool) (i s : Nat), s < i →
    ∃ p ∈ scan i (some s) col, p.1 = s ∧ i - 1 ≤ p.2 := by
  intro col
  induction col with
  | nil =>
    intro i s hs
    exact ⟨(s, i - 1), by simp [scan], rfl, le_refl _⟩
  | cons b rest ih =>
    intro i s hs
    cases b with
    | true =>
      obtain ⟨p, hp, h1, h2⟩ := ih (i + 1) s (by omega)
      exact ⟨p, by simpa [scan] using hp, h1, by omega⟩
    | false =>
      exact ⟨(s, i - 1), by simp [scan], rfl, le_refl _⟩

/-- Every `true` cell of the unprocessed region is covered by some run of the
scanner. -/
theorem scan_cover : ∀ (col : List Bool) (i : Nat) (st : Option Nat),
    stOk i st → ∀ j, j < col.length → col.getD j false = true →
      ∃ p ∈ scan i st col, p.1 ≤ i + j ∧ i + j ≤ p.2 := by
  intro col
  induction col with
  | nil =>
    intro i st hst j hj
    simp at hj
  | cons b rest ih =>
    intro i st hst j hj hcell
    cases st with
    | none =>
      cases b with
      | false =>
        cases j with
        | zero => simp at hcell
        | succ j0 =>
          simp at hj hcell
          obtain ⟨p, hp, h1, h2⟩ := ih (i + 1) none trivial j0 hj (by simpa using hcell)
          exact ⟨p, by simpa [scan] using hp, by omega, by omega⟩
      | true =>
        cases j with
        | zero =>
          obtain ⟨p, hp, h1, h2⟩ := scan_open rest (i + 1) i (by omega)
          exact ⟨p, by simpa [scan] using hp, by omega, by omega⟩
        | succ j0 =>
          simp at hj hcell
          obtain ⟨p, hp, h1, h2⟩ := ih (i + 1) (some i) (by simp [stOk]) j0 hj
            (by simpa using hcell)
          exact ⟨p, by simpa [scan] using hp, by omega, by omega⟩
    | some s =>
      simp [stOk] at hst
      cases b with
      | true =>
        cases j with
        | zero =>
          obtain ⟨p, hp, h1, h2⟩ := scan_open rest (i + 1) s (by omega)
          exact ⟨p, by simpa [scan] using hp, by omega, by omega⟩
        | succ j0 =>
          simp at hj hcell
          obtain ⟨p, hp, h1, h2⟩ := ih (i + 1) (some s) (by simp [stOk]; omega) j0 hj
            (by simpa using hcell)
          exact ⟨p, by simpa [scan] using hp, by omega, by omega⟩
      | false =>
        cases j with
        | zero => simp at hcell
        | succ j0 =>
          simp at hj hcell
          obtain ⟨p, hp, h1, h2⟩ := ih (i + 1) none trivial j0 hj (by simpa using hcell)
          refine ⟨p, ?_, by omega, by omega⟩
          simp [scan]
          exact Or.inr hp

theorem startsFrom_length : ∀ (col : List Bool) (prev : Bool),
    (startsFrom prev col).length = col.length := by
  intro col
  induction col with
  | nil => intro prev; rfl
  | cons b rest ih => intro prev; simp [startsFrom, ih]

theorem stops_length : ∀ (col : List Bool), (stops col).length = col.length := by
  intro col
  induction col with
  | nil => rfl
  | cons b rest ih => simp [stops, ih]

/-- Pointwise description of the start-edge flags: a start flag is raised at
`j` iff the cell at `j` is `true` and the cell at `j - 1` (or the sentinel
`prev` when `j = 0`) is `false`. -/
theorem startsFrom_getD : ∀ (col : List Bool) (prev : Bool) (j : Nat),
    (startsFrom prev col).getD j false =
      (col.getD j false && !(if j = 0 then prev else col.getD (j - 1) false)) := by
  intro col
  induction col with
  | nil => intro prev j; simp [startsFrom]
  | cons b rest ih =>
    intro prev j
    cases j with
    | zero => simp [startsFrom, Bool.and_comm]
    | succ j0 =>
      cases j0 with
      | zero => simpa [startsFrom] using ih b 0
      | succ j1 => simpa [startsFrom] using ih b (j1 + 1)

/-- Pointwise description of the stop-edge flags: a stop flag is raised at `j`
iff the cell at `j` is `true` and the cell at `j + 1` (the sentinel `false`
past the end) is `false`. -/
theorem stops_getD : ∀ (col : List Bool) (j : Nat),
    (stops col).getD j false = (col.getD j false && !(col.getD (j + 1) false)) := by
  intro col
  induction col with
  | nil => intro j; simp [stops]
  | cons b rest ih =>
    intro j
    cases j with
    | zero =>
      cases rest with
      | nil => simp [stops]
      | cons b2 r2 => simp [stops]
    | succ j0 => simpa [stops] using ih j0

/-- Membership in the `np.where` index list. -/
theorem mem_trueIdxFrom : ∀ (l : List Bool) (i j : Nat),
    j ∈ trueIdxFrom i l ↔ (i ≤ j ∧ j - i < l.length ∧ l.getD (j - i) false = true) := by
  intro l
  induction l with
  | nil => intro i j; simp [trueIdxFrom]
  | cons b rest ih =>
    intro i j
    cases b with
    | false =>
      have hstep : trueIdxFrom i (false :: rest) = trueIdxFrom (i + 1) rest := by
        simp [trueIdxFrom]
      rw [hstep, ih]
      constructor
      · rintro ⟨h1, h2, h3⟩
        have hji : j - i = (j - (i + 1)) + 1 := by omega
        exact ⟨by omega, by simp; omega, by simpa [hji] using h3⟩
      · rintro ⟨h1, h2, h3⟩
        rcases Nat.eq_or_lt_of_le h1 with h | h
        · subst h; simp at h3
        · have hji : j - i = (j - (i + 1)) + 1 := by omega
          rw [hji] at h3
          simp at h2
          exact ⟨by omega, by omega, by simpa using h3⟩
    | true =>
      have hstep : trueIdxFrom i (true :: rest) = i :: trueIdxFrom (i + 1) rest := by
        simp [trueIdxFrom]
      rw [hstep]
      simp only [List.mem_cons]
      rw [ih]
      constructor
      · rintro (h | ⟨h1, h2, h3⟩)
        · subst h; simp
        · have hji : j - i = (j - (i + 1)) + 1 := by omega
          exact ⟨by omega, by simp; omega, by simpa [hji] using h3⟩
      · rintro ⟨h1, h2, h3⟩
        rcases Nat.eq_or_lt_of_le h1 with h | h
        · exact Or.inl h.symm
        · have hji : j - i = (j - (i + 1)) + 1 := by omega
          rw [hji] at h3
          simp at h2
          exact Or.inr ⟨by omega, by omega, by simpa using h3⟩

/-! ## Matrix-level pairing

`np.where` on the transposed mask enumerates coordinates column-major (all
rows of data column 0, then column 1, ...); after the swap back each
coordinate is an (original row, original column) pair, and the k-th start is
paired with the k-th stop across the whole matrix. -/

/-- All (row, column) start coordinates of a mask given as a list of columns,
in the source's column-major order; `c` is the index of the first column. -/
def blockStartsFrom (c : Nat) : List (List Bool) → List (Nat × Nat)
  | [] => []
  | col :: rest =>
      (trueIdxFrom 0 (startsFrom false col)).map (fun r => (r, c)) ++
        blockStartsFrom (c + 1) rest

/-- All (row, column) stop coordinates, in the same order. -/
def blockStopsFrom (c : Nat) : List (List Bool) → List (Nat × Nat)
  | [] => []
  | col :: rest =>
      (trueIdxFrom 0 (stops col)).map (fun r => (r, c)) ++
        blockStopsFrom (c + 1) rest

/-- The `block` dictionary of `_append_test_results`: the k-th start
coordinate paired with the k-th stop coordinate. -/
def blocks (cols : List (List Bool)) : List ((Nat × Nat) × (Nat × Nat)) :=
  List.zip (blockStartsFrom 0 cols) (blockStopsFrom 0 cols)

/-- Per-column reference decomposition of the paired blocks. -/
def colBlocks (c : Nat) : List (List Bool) → List ((Nat × Nat) × (Nat × Nat))
  | [] => []
  | col :: rest =>
      (scan 0 none col).map (fun p => ((p.1, c), (p.2, c))) ++ colBlocks (c + 1) rest

theorem blockStartsFrom_eq : ∀ (cols : List (List Bool)) (c : Nat),
    blockStartsFrom c cols =
      (colBlocks c cols).map (fun q => q.1) := by
  intro cols
  induction cols with
  | nil => intro c; rfl
  | cons col rest ih =>
    intro c
    have h1 : trueIdxFrom 0 (startsFrom false col) = (scan 0 none col).map Prod.fst :=
      (scan_map_fst col 0 none).symm
    simp only [blockStartsFrom, colBlocks, ih, h1, List.map_append, List.map_map]
    rfl

theorem blockStopsFrom_eq : ∀ (cols : List (List Bool)) (c : Nat),
    blockStopsFrom c cols =
      (colBlocks c cols).map (fun q => q.2) := by
  intro cols
  induction cols with
  | nil => intro c; rfl
  | cons col rest ih =>
    intro c
    have h2 : trueIdxFrom 0 (stops col) = (scan 0 none col).map Prod.snd :=
      (scan_map_snd col 0 none (by simp)).symm
    simp only [blockStopsFrom, colBlocks, ih, h2, List.map_append, List.map_map]
    rfl

/-- Zipping the two projections of a pair list reassembles it (pairs of
pairs). -/
theorem zip_fst_snd' : ∀ (l : List ((Nat × Nat) × (Nat × Nat))),
    List.zip (l.map (fun q => q.1)) (l.map (fun q => q.2)) = l := by
  intro l
  induction l with
  | nil => rfl
  | cons p rest ih => simp [List.zip, ih]

/-- The global positional pairing of `np.where` starts with `np.where` stops
is exactly the per-column run decomposition: pairing never mixes columns. -/
theorem blocks_eq_colBlocks (cols : List (List Bool)) :
    blocks cols = colBlocks 0 cols := by
  rw [blocks, blockStartsFrom_eq, blockStopsFrom_eq, zip_fst_snd']

/-! ## Data model (source: `PerformanceMonitoring.__init__` and module head) -/

/-- Python values that can appear in a caller-supplied `bound` list. -/
inductive PyVal where
  | num (q : Rat)
  | str (s : String)
  | pynone
  | emptyList
  | emptyDict
deriving DecidableEq

/-- Source line 12: `none_list = ['','none','None','NONE', None, [], {}]`. -/
def noneList : List PyVal :=
  [PyVal.str "", PyVal.str "none", PyVal.str "None", PyVal.str "NONE",
   PyVal.pynone, PyVal.emptyList, PyVal.emptyDict]

/-- The in-place rewrite `bound[i] = None` applied to entries of `none_list`. -/
def normalizePyVal (v : PyVal) : PyVal :=
  if v ∈ noneList then PyVal.pynone else v

/-- One row of `self.test_results`
(columns `Variable Name, Start Time, End Time, Timesteps, Error Flag`). -/
structure TestRecord where
  varName : String
  startTime : Nat
  endTime : Nat
  timesteps : Nat
  errorFlag : String
deriving DecidableEq

/-- A data column: one cell per timestamp, `none` = NaN. -/
abbrev DataCol := List (Option Rat)

/-- A boolean failure matrix: named boolean columns over the data index. -/
abbrev BoolMat := List (String × List Bool)

/-- The `PerformanceMonitoring` object: `self.df` is `index` + `cols`
(all columns share the one timestamp index), plus `self.trans`,
`self.tfilter` (`[]` = empty filter) and `self.test_results`. -/
structure Engine where
  index : List Nat
  cols : List (String × DataCol)
  trans : List (String × List String)
  tfilter : List Bool
  test_results : List TestRecord
deriving DecidableEq

/-- `self.df.empty`: true iff either axis has length 0. -/
def dfEmpty (e : Engine) : Bool := e.index.isEmpty || e.cols.isEmpty

/-- `self.df[names]`: `none` models the KeyError raised (and caught by the
caller) when some name is not a column. -/
def lookupCols (e : Engine) (names : List String) : Option (List (String × DataCol)) :=
  names.mapM fun n => (e.cols.find? (fun c => c.1 == n)).map fun c => (n, c.2)

/-- `_setup_data` (lines 98-116): `none` models the logged early return
(empty dataset, unknown key, or unknown column in the translation entry). -/
def setupData (e : Engine) (key : Option String) : Option (List (String × DataCol)) :=
  if dfEmpty e then none
  else
    match key with
    | none => some e.cols
    | some k =>
        match e.trans.find? (fun t => t.1 == k) with
        | none => none
        | some t => lookupCols e t.2

/-! ## Test recorder (source: `_append_test_results`, lines 141-218) -/

/-- Line 163-164: `if not self.tfilter.empty: mask[~self.tfilter] = False`. -/
def applyTimeFilter (tf : List Bool) (m : BoolMat) : BoolMat :=
  if tf.isEmpty then m
  else m.map fun nc => (nc.1, List.zipWith (fun b t => b && t) nc.2 tf)

/-- Line 165: `mask.sum(axis=1).sum(axis=0)`. -/
def totalCount (m : BoolMat) : Nat :=
  (m.map fun nc => nc.2.count true).sum

/-- Lines 203-218: one record per retained block.  `q.1` is the (start row,
start col) coordinate, `q.2` the (stop row, stop col) coordinate; the length
is `Stop Row - Start Row + 1`, the variable name is looked up at the start
column (empty when `use_mask_only`), and the timestamps come from the
index at the start/stop rows. -/
def mkRecords (idx : List Nat) (names : List String) (maskCols : List (List Bool))
    (msg : String) (minFailures : Nat) (useMaskOnly : Bool) : List TestRecord :=
  (blocks maskCols).filterMap fun q =>
    if minFailures ≤ q.2.1 - q.1.1 + 1 then
      some { varName := if useMaskOnly then "" else names.getD q.1.2 ""
             startTime := idx.getD q.1.1 0
             endTime := idx.getD q.2.1 0
             timesteps := q.2.1 - q.1.1 + 1
             errorFlag := msg }
    else none

/-- `_append_test_results`: apply the time filter, return unchanged on an
all-pass matrix, else extract blocks and append the retained records. -/
def appendTestResults (e : Engine) (idx : List Nat) (m : BoolMat)
    (msg : String) (minFailures : Nat) (useMaskOnly : Bool) : Engine :=
  let mf := applyTimeFilter e.tfilter m
  if totalCount mf = 0 then e
  else
    { e with
      test_results := e.test_results ++
        mkRecords idx (mf.map Prod.fst) (mf.map Prod.snd) msg minFailures useMaskOnly }

/-! ## Aggregate mask and cleaned data (source: properties `mask` and
`cleaned_data`, lines 56-96) -/

/-- One iteration of the loop in `mask`: force the block
`[Start Time .. End Time] × Variable Name` to `False` (a record whose
variable is not a current column is skipped). -/
def punch (idx : List Nat) (r : TestRecord) (m : BoolMat) : BoolMat :=
  m.map fun nc =>
    if nc.1 == r.varName then
      (nc.1,
        List.zipWith (fun t b => if r.startTime ≤ t ∧ t ≤ r.endTime then false else b)
          idx nc.2)
    else nc

/-- The boolean mask computed by the `mask` property on a nonempty dataset:
start from `~isnull(df)` and punch out every recorded interval. -/
def maskMatrix (e : Engine) : BoolMat :=
  e.test_results.foldl (fun m r => punch e.index r m)
    (e.cols.map fun nc => (nc.1, nc.2.map Option.isSome))

/-- The `mask` property: `None` (a logged no-data sentinel) on an empty
dataset, the computed matrix otherwise. -/
def mask (e : Engine) : Option BoolMat :=
  if dfEmpty e then none else some (maskMatrix e)

/-- The `cleaned_data` property, `self.df[self.mask]`: on an empty dataset
`self.mask` is `None` and the subscript raises (modelled by `error`);
otherwise failing cells are blanked to NaN. -/
def cleaned_data (e : Engine) : Except Unit (List (String × DataCol)) :=
  match mask e with
  | none => Except.error ()
  | some m =>
      Except.ok (List.zipWith
        (fun nc mc => (nc.1, List.zipWith (fun v b => if b then v else none) nc.2 mc.2))
        e.cols m)

/-! ## `_generate_test_results` (lines 118-139) -/

/-- NaN-aware strict `<` of pandas: NaN compares `False`. -/
def optLt (v : Option Rat) (b : Rat) : Bool :=
  match v with
  | none => false
  | some x => decide (x < b)

/-- NaN-aware strict `>` of pandas: NaN compares `False`. -/
def optGt (v : Option Rat) (b : Rat) : Bool :=
  match v with
  | none => false
  | some x => decide (b < x)

def lowerMsg (errorWord : String) (q : Rat) : String :=
  errorWord ++ " < lower bound, " ++ toString q

def upperMsg (errorWord : String) (q : Rat) : String :=
  errorWord ++ " > upper bound, " ++ toString q

/-- One bound branch of `_generate_test_results`: skip on `None`, compare and
append on a number, raise (`error`) when a numeric frame is compared against
a leftover non-numeric bound entry. -/
def boundStep (e : Engine) (data : List (String × DataCol)) (b : PyVal)
    (msg : Rat → String) (cmp : Option Rat → Rat → Bool) (minFailures : Nat) :
    Except Unit Engine :=
  match b with
  | PyVal.pynone => Except.ok e
  | PyVal.num q =>
      Except.ok (appendTestResults e e.index
        (data.map fun nc => (nc.1, nc.2.map fun v => cmp v q)) (msg q) minFailures false)
  | _ => Except.error ()

/-- `_generate_test_results`: normalize the caller's `bound` list in place
(the returned list is the caller's list after the call), then run the lower
and the upper branch.  A too-short `bound` raises IndexError (`error`). -/
def generate_test_results (e : Engine) (data : List (String × DataCol))
    (bound : List PyVal) (minFailures : Nat) (errorWord : String) :
    Except Unit (Engine × List PyVal) :=
  let nb := bound.map normalizePyVal
  match nb.get? 0 with
  | none => Except.error ()
  | some b0 =>
      match boundStep e data b0 (lowerMsg errorWord) optLt minFailures with
      | Except.error u => Except.error u
      | Except.ok e1 =>
          match nb.get? 1 with
          | none => Except.error ()
          | some b1 =>
              match boundStep e1 data b1 (upperMsg errorWord) optGt minFailures with
              | Except.error u => Except.error u
              | Except.ok e2 => Except.ok (e2, nb)

/-- `check_range` (lines 379-405). -/
def check_range (e : Engine) (bound : List PyVal) (key : Option String)
    (minFailures : Nat) : Except Unit (Engine × List PyVal) :=
  match setupData e key with
  | none => Except.ok (e, bound)
  | some data => generate_test_results e data bound minFailures "Data"

/-! ## `check_increment` (lines 407-453) -/

/-- `df.isnull().all().all()`. -/
def allNull (data : List (String × DataCol)) : Bool :=
  data.all fun nc => nc.2.all fun v => v.isNone

/-- `df.diff(periods=increment)` on one column: NaN at the first `k`
positions and wherever either operand is NaN. -/
def diffCol (k : Nat) (c : DataCol) : DataCol :=
  (List.range c.length).map fun t =>
    if t < k then none
    else
      match c.getD t none, c.getD (t - k) none with
      | some a, some b => some (a - b)
      | _, _ => none

/-- `check_increment`.  On an all-null frame the source logs
`"..." + key`, which raises `TypeError` when `key` is `None` (modelled by
`error`). -/
def check_increment (e : Engine) (bound : List PyVal) (key : Option String)
    (increment : Nat) (absoluteValue : Bool) (minFailures : Nat) :
    Except Unit (Engine × List PyVal) :=
  match setupData e key with
  | none => Except.ok (e, bound)
  | some data =>
      if allNull data then
        match key with
        | none => Except.error ()
        | some _ => Except.ok (e, bound)
      else
        let d := data.map fun nc =>
          (nc.1,
            if absoluteValue then (diffCol increment nc.2).map (Option.map fun x => |x|)
            else diffCol increment nc.2)
        generate_test_results e d bound minFailures
          (if absoluteValue then "|Increment|" else "Increment")

/-! ## Rolling windows (shared by `check_delta` and `check_outlier`)

pandas offset-window rolling (`df.rolling('Nms')`) collects, for the row at
timestamp `t`, the rows with timestamps in the right-closed interval
`(t - N, t]`. -/

/-- Positions of the rolling window ending at position `p`. -/
def windowPos (idx : List Nat) (w : Nat) (p : Nat) : List Nat :=
  (List.range (p + 1)).filter fun q => idx.getD p 0 < idx.getD q 0 + w

/-- Cells of the rolling window ending at position `p`. -/
def windowCells (idx : List Nat) (w : Nat) (c : DataCol) (p : Nat) : DataCol :=
  (windowPos idx w p).map fun q => c.getD q none

/-- (timestamp, value) pairs of the valid cells of the window ending at `p`. -/
def windowValid (idx : List Nat) (w : Nat) (c : DataCol) (p : Nat) : List (Nat × Rat) :=
  (windowPos idx w p).filterMap fun q => (c.getD q none).map fun x => (idx.getD q 0, x)

def minOf : List Rat → Option Rat
  | [] => none
  | x :: xs => some (xs.foldl min x)

def maxOf : List Rat → Option Rat
  | [] => none
  | x :: xs => some (xs.foldl max x)

/-! ## `check_delta` (lines 456-571) -/

/-- `f(x, 'min')` of `check_delta`: NaN unless the window holds at least two
non-absent samples. -/
def fMin (idx : List Nat) (w : Nat) (c : DataCol) (p : Nat) : Option Rat :=
  let wv := windowValid idx w c p
  if wv.length < 2 then none else minOf (wv.map Prod.snd)

/-- `f(x, 'max')`. -/
def fMax (idx : List Nat) (w : Nat) (c : DataCol) (p : Nat) : Option Rat :=
  let wv := windowValid idx w c p
  if wv.length < 2 then none else maxOf (wv.map Prod.snd)

/-- `f(x, 'idxmin')`: the timestamp of the first valid sample attaining the
window minimum (pandas `idxmin`), NaT for a window with fewer than two valid
samples. -/
def fIdxMin (idx : List Nat) (w : Nat) (c : DataCol) (p : Nat) : Option Nat :=
  let wv := windowValid idx w c p
  if wv.length < 2 then none
  else
    match minOf (wv.map Prod.snd) with
    | none => none
    | some m => (wv.find? fun q => q.2 == m).map Prod.fst

/-- `f(x, 'idxmax')`. -/
def fIdxMax (idx : List Nat) (w : Nat) (c : DataCol) (p : Nat) : Option Nat :=
  let wv := windowValid idx w c p
  if wv.length < 2 then none
  else
    match maxOf (wv.map Prod.snd) with
    | none => none
    | some m => (wv.find? fun q => q.2 == m).map Prod.fst

/-- `diff_df = max_df - min_df`, with `diff_df[tmax_df < tmin_df]` negated
when `absolute_value` is false; NaN when either side is NaN. -/
def deltaDiff (absoluteValue : Bool) (idx : List Nat) (w : Nat) (c : DataCol)
    (p : Nat) : Option Rat :=
  match fMax idx w c p, fMin idx w c p with
  | some a, some b =>
      let d := a - b
      if absoluteValue then some d
      else
        match fIdxMax idx w c p, fIdxMin idx w c p with
        | some tmx, some tmn => if tmx < tmn then some (-d) else some d
        | _, _ => some d
  | _, _ => none

/-- Time-filter application for unnamed boolean columns (lines 556-557). -/
def applyTFCols (tf : List Bool) (m : List (List Bool)) : List (List Bool) :=
  if tf.isEmpty then m
  else m.map fun col => List.zipWith (fun b t => b && t) col tf

def totalCountCols (m : List (List Bool)) : Nat := (m.map (List.count true)).sum

/-- The flagged cells of a mask in `stack()` order: rows outer (index order),
columns inner. -/
def stackedTrue (maskCols : List (List Bool)) (nRows : Nat) : List (Nat × Nat) :=
  (List.range nRows).flatMap fun r =>
    (List.range maskCols.length).filterMap fun c =>
      if (maskCols.getD c []).getD r false then some (r, c) else none

/-- One iteration of the loop in `extract_exact_position`: reset the flagged
cell of column `rc.2`, then set the whole span between the window-min and
window-max timestamps (inclusive, in either order) of that column to `True`.
The `NaT` case is unreachable for a flagged cell (the delta is NaN there). -/
def applyExact (idx : List Nat) (tmn tmx : Option Nat) (rc : Nat × Nat)
    (m : List (List Bool)) : List (List Bool) :=
  match tmn, tmx with
  | some a, some b =>
      match m.get? rc.2 with
      | none => m
      | some col =>
          let col1 := col.set rc.1 false
          let col2 :=
            List.zipWith (fun t bb => if min a b ≤ t ∧ t ≤ max a b then true else bb)
              idx col1
          m.set rc.2 col2
  | _, _ => m

/-- `extract_exact_position` (lines 537-551): start from an all-`False`
matrix and process every flagged cell in `stack()` order. -/
def extract_exact_position (idx : List Nat) (w : Nat)
    (data : List (String × DataCol)) (mask1 : List (List Bool)) : List (List Bool) :=
  (stackedTrue mask1 idx.length).foldl
    (fun m rc =>
      let c := (data.getD rc.2 ("", [])).2
      applyExact idx (fIdxMin idx w c rc.1) (fIdxMax idx w c rc.1) rc m)
    (mask1.map fun col => col.map fun _ => false)

/-- One bound branch of `check_delta` (lines 553-571). -/
def deltaBoundStep (e : Engine) (data : List (String × DataCol)) (w : Nat)
    (absoluteValue : Bool) (b : PyVal) (msg : Rat → String)
    (cmp : Option Rat → Rat → Bool) (minFailures : Nat) : Except Unit Engine :=
  match b with
  | PyVal.pynone => Except.ok e
  | PyVal.num q =>
      let mask1 := data.map fun nc =>
        (List.range nc.2.length).map fun p => cmp (deltaDiff absoluteValue e.index w nc.2 p) q
      let mask1 := applyTFCols e.tfilter mask1
      if totalCountCols mask1 = 0 then Except.ok e
      else
        let mask2 := extract_exact_position e.index w data mask1
        Except.ok (appendTestResults e e.index (List.zip (data.map Prod.fst) mask2)
          (msg q) minFailures false)
  | _ => Except.error ()

/-- `check_delta`. -/
def check_delta (e : Engine) (bound : List PyVal) (key : Option String)
    (window : Nat) (absoluteValue : Bool) (minFailures : Nat) :
    Except Unit (Engine × List PyVal) :=
  match setupData e key with
  | none => Except.ok (e, bound)
  | some data =>
      let errorWord := if absoluteValue then "|Delta|" else "Delta"
      let nb := bound.map normalizePyVal
      match nb.get? 0 with
      | none => Except.error ()
      | some b0 =>
          match deltaBoundStep e data window absoluteValue b0 (lowerMsg errorWord)
              optLt minFailures with
          | Except.error u => Except.error u
          | Except.ok e1 =>
              match nb.get? 1 with
              | none => Except.error ()
              | some b1 =>
                  match deltaBoundStep e1 data window absoluteValue b1
                      (upperMsg errorWord) optGt minFailures with
                  | Except.error u => Except.error u
                  | Except.ok e2 => Except.ok (e2, nb)

/-! ## `check_outlier` (lines 573-626) -/

/-- Valid (non-NaN) values of a column. -/
def validVals (c : DataCol) : List Rat := c.filterMap id

/-- `mean` over the valid cells; NaN when there are none. -/
def colMean (c : DataCol) : Option Rat :=
  let v := validVals c
  if v.length = 0 then none else some (v.sum / v.length)

/-- Sample standard deviation (pandas `std`, `ddof = 1`); the square root of
a float is not representable over `Rat`, so the numeric square root is a
parameter `sqrtFn`.  NaN with fewer than two valid cells. -/
def colStd (sqrtFn : Rat → Rat) (c : DataCol) : Option Rat :=
  let v := validVals c
  if v.length ≤ 1 then none
  else
    match colMean c with
    | none => none
    | some m => some (sqrtFn ((v.map fun x => (x - m) * (x - m)).sum / (v.length - 1)))

/-- `(x - mean)/std`, combined with the subsequent
`df.replace([np.inf, -np.inf], np.nan)`: a zero std yields NaN. -/
def normalizeCell (mean std : Option Rat) (v : Option Rat) : Option Rat :=
  match v, mean, std with
  | some x, some m, some s => if s = 0 then none else some ((x - m) / s)
  | _, _, _ => none

/-- `check_outlier`. -/
def check_outlier (sqrtFn : Rat → Rat) (e : Engine) (bound : List PyVal)
    (key : Option String) (window : Option Nat) (absoluteValue : Bool)
    (minFailures : Nat) : Except Unit (Engine × List PyVal) :=
  match setupData e key with
  | none => Except.ok (e, bound)
  | some data =>
      let d := data.map fun nc =>
        (nc.1,
          match window with
          | some w =>
              (List.range nc.2.length).map fun p =>
                normalizeCell (colMean (windowCells e.index w nc.2 p))
                  (colStd sqrtFn (windowCells e.index w nc.2 p)) (nc.2.getD p none)
          | none => nc.2.map (normalizeCell (colMean nc.2) (colStd sqrtFn nc.2)))
      let d2 :=
        if absoluteValue then d.map fun nc => (nc.1, nc.2.map (Option.map fun x => |x|))
        else d
      generate_test_results e d2 bound minFailures
        (if absoluteValue then "|Outlier|" else "Outlier")

/-! ## `check_missing` (lines 628-656) -/

/-- `check_missing`: the raw matrix is `isnull(df)`, with rows already covered
by a recorded "Missing timestamp" interval suppressed (the `loc` assignment
spans all columns). -/
def check_missing (e : Engine) (key : Option String) (minFailures : Nat) : Engine :=
  match setupData e key with
  | none => e
  | some data =>
      let m0 : BoolMat := data.map fun nc => (nc.1, nc.2.map Option.isNone)
      let missingRecs := e.test_results.filter fun r => r.errorFlag == "Missing timestamp"
      let m := missingRecs.foldl
        (fun m r => m.map fun nc =>
          (nc.1,
            List.zipWith (fun t b => if r.startTime ≤ t ∧ t ≤ r.endTime then false else b)
              e.index nc.2))
        m0
      appendTestResults e e.index m "Missing data" minFailures false

/-! ## `check_corrupt` (lines 658-687) -/

/-- `check_corrupt`: flag cells equal to any corrupt value, scrub the flagged
cells of `self.df` to NaN (`self.df[mask] = np.nan`, aligned by column name),
then record. -/
def check_corrupt (e : Engine) (corruptValues : List Rat) (key : Option String)
    (minFailures : Nat) : Engine :=
  match setupData e key with
  | none => e
  | some data =>
      let m : BoolMat := data.map fun nc =>
        (nc.1, nc.2.map fun v =>
          match v with
          | some x => corruptValues.contains x
          | none => false)
      let newCols := e.cols.map fun nc =>
        match m.find? (fun mc => mc.1 == nc.1) with
        | none => nc
        | some mc => (nc.1, List.zipWith (fun v b => if b then none else v) nc.2 mc.2)
      let e2 := { e with cols := newCols }
      appendTestResults e2 e2.index m "Corrupt data" minFailures false

/-! ## `check_timestamp` (lines 275-377) -/

def minIdx : List Nat → Nat
  | [] => 0
  | x :: xs => xs.foldl min x

def maxIdx : List Nat → Nat
  | [] => 0
  | x :: xs => xs.foldl max x

/-- `pd.date_range(start, end, freq)` over `Nat` timestamps (empty when the
start exceeds the end). -/
def dateRange (start stop step : Nat) : List Nat :=
  if step = 0 then []
  else if start ≤ stop then (List.range ((stop - start) / step + 1)).map fun k => start + k * step
  else []

/-- Nonmonotonic-timestamp mask: `Series(index).diff() < 0` with the first
entry forced `False`.  The forcing (`mask[mask.index[0]] = False`) assigns by
label, so every row sharing the first timestamp is cleared. -/
def nonmonotonicMask (idx : List Nat) : List Bool :=
  (List.range idx.length).map fun p =>
    if idx.getD p 0 = idx.getD 0 0 then false
    else decide (idx.getD p 0 < idx.getD (p - 1) 0)

/-- `self.df.index.is_monotonic` (non-strict increase). -/
def isMonotonicIdx (idx : List Nat) : Bool :=
  (List.zip idx idx.tail).all fun q => decide (q.1 ≤ q.2)

/-- Stable sort permutation of the row positions by timestamp
(`self.df.sort_index()`; modelled as a stable sort). -/
def sortPerm (idx : List Nat) : List Nat :=
  (List.range idx.length).mergeSort fun a b => idx.getD a 0 ≤ idx.getD b 0

def sortByIndex (e : Engine) : Engine :=
  let perm := sortPerm e.index
  { e with
    index := perm.map fun p => e.index.getD p 0
    cols := e.cols.map fun nc => (nc.1, perm.map fun p => nc.2.getD p none) }

/-- Duplicate-timestamp mask: `diff() == 0` with the first entry forced
`False` by a label assignment clearing every row sharing the first
timestamp. -/
def duplicateMask (idx : List Nat) : List Bool :=
  (List.range idx.length).map fun p =>
    if idx.getD p 0 = idx.getD 0 0 then false
    else decide (idx.getD p 0 = idx.getD (p - 1) 0)

/-- Positions kept by `drop_duplicates(keep='last')` on the timestamps. -/
def lastOccPos (idx : List Nat) : List Nat :=
  (List.range idx.length).filter fun p =>
    (List.range idx.length).all fun q => q ≤ p || decide (idx.getD q 0 ≠ idx.getD p 0)

/-- Positions kept by `drop_duplicates(keep='first')` on the timestamps. -/
def firstOccPos (idx : List Nat) : List Nat :=
  (List.range idx.length).filter fun p =>
    (List.range idx.length).all fun q => p ≤ q || decide (idx.getD q 0 ≠ idx.getD p 0)

/-- Drop duplicate-timestamp rows of `self.df`, keeping the first
occurrence. -/
def dedupFirst (e : Engine) : Engine :=
  let keep := firstOccPos e.index
  { e with
    index := keep.map fun p => e.index.getD p 0
    cols := e.cols.map fun nc => (nc.1, keep.map fun p => nc.2.getD p none) }

/-- `self.df.reindex(index=rng)`: one row per grid point, NaN where the grid
point is absent from the (deduplicated, hence unique) index; off-grid rows
are dropped. -/
def reindexTo (rng : List Nat) (e : Engine) : Engine :=
  { e with
    index := rng
    cols := e.cols.map fun nc =>
      (nc.1, rng.map fun t =>
        match (List.range e.index.length).find? (fun p => e.index.getD p 0 = t) with
        | none => none
        | some p => nc.2.getD p none) }

/-- Non-exact mode: `resample(freq).count() == 0` — (bucket label, is-empty)
pairs; buckets are the multiples of `f` from the floor of the first timestamp
to the floor of the last (the pandas bucket origin is modelled as 0). -/
def resampleEmptyMask (idx : List Nat) (f : Nat) : List (Nat × Bool) :=
  if f = 0 then []
  else
    match idx with
    | [] => []
    | _ =>
        let lo := minIdx idx / f
        let hi := maxIdx idx / f
        (List.range (hi - lo + 1)).map fun k =>
          ((lo + k) * f, decide (idx.all fun t => t / f ≠ lo + k))

/-- `check_timestamp`: nonmonotonic check (then sort if needed), duplicate
check (then drop duplicates keeping the first), then the missing-timestamp
check — reindexing onto the expected grid in exact mode, bucket counting in
non-exact mode. -/
def check_timestamp (e : Engine) (frequency : Nat)
    (expectedStart expectedEnd : Option Nat) (minFailures : Nat)
    (exactTimes : Bool) : Engine :=
  if dfEmpty e then e
  else
    let startT := expectedStart.getD (minIdx e.index)
    let endT := expectedEnd.getD (maxIdx e.index)
    let rng := dateRange startT endT frequency
    let e1 := appendTestResults e e.index [("0", nonmonotonicMask e.index)]
      "Nonmonotonic timestamp" minFailures true
    let e2 := if isMonotonicIdx e1.index then e1 else sortByIndex e1
    let dmask := duplicateMask e2.index
    let keepLast := lastOccPos e2.index
    let dupIdx := keepLast.map fun p => e2.index.getD p 0
    let dupVals := keepLast.map fun p => dmask.getD p false
    let e3 := dedupFirst e2
    let e4 := appendTestResults e3 dupIdx [("0", dupVals)]
      "Duplicate timestamp" minFailures true
    if exactTimes then
      let missing := rng.filter fun t => !(e4.index.contains t)
      let e5 := reindexTo rng e4
      let mmask := rng.map fun t => missing.contains t
      appendTestResults e5 rng [("0", mmask)] "Missing timestamp" minFailures true
    else
      let bm := resampleEmptyMask e4.index frequency
      appendTestResults e4 (bm.map Prod.fst) [("0", bm.map Prod.snd)]
        "Missing timestamp" minFailures true

/-! ## Structural lemmas about the recorder -/

theorem extract_map_fst (col : List Bool) :
    (extractRunsCol col).map Prod.fst = trueIdxFrom 0 (startsFrom false col) := by
  rw [extractRunsCol_eq_scan]
  exact scan_map_fst col 0 none

theorem extract_map_snd (col : List Bool) :
    (extractRunsCol col).map Prod.snd = trueIdxFrom 0 (stops col) := by
  rw [extractRunsCol_eq_scan]
  exact scan_map_snd col 0 none (by simp)

/-- Per-column view of the records built by `mkRecords`. -/
def colRecords (idx : List Nat) (names : List String) (msg : String)
    (minFailures : Nat) (useMaskOnly : Bool) (c : Nat) (col : List Bool) :
    List TestRecord :=
  (scan 0 none col).filterMap fun p =>
    if minFailures ≤ p.2 - p.1 + 1 then
      some { varName := if useMaskOnly then "" else names.getD c ""
             startTime := idx.getD p.1 0
             endTime := idx.getD p.2 0
             timesteps := p.2 - p.1 + 1
             errorFlag := msg }
    else none

def colRecordsFrom (idx : List Nat) (names : List String) (msg : String)
    (minFailures : Nat) (useMaskOnly : Bool) (c : Nat) :
    List (List Bool) → List TestRecord
  | [] => []
  | col :: rest =>
      colRecords idx names msg minFailures useMaskOnly c col ++
        colRecordsFrom idx names msg minFailures useMaskOnly (c + 1) rest

theorem colBlocks_filterMap (idx : List Nat) (names : List String) (msg : String)
    (minFailures : Nat) (useMaskOnly : Bool) :
    ∀ (m : List (List Bool)) (c : Nat),
      (colBlocks c m).filterMap (fun q =>
        if minFailures ≤ q.2.1 - q.1.1 + 1 then
          some { varName := if useMaskOnly then "" else names.getD q.1.2 ""
                 startTime := idx.getD q.1.1 0
                 endTime := idx.getD q.2.1 0
                 timesteps := q.2.1 - q.1.1 + 1
                 errorFlag := msg }
        else none) = colRecordsFrom idx names msg minFailures useMaskOnly c m := by
  intro m
  induction m with
  | nil => intro c; rfl
  | cons col rest ih =>
    intro c
    simp only [colBlocks, colRecordsFrom, List.filterMap_append, List.filterMap_map, ih]
    rfl

/-- The records appended by `_append_test_results` decompose per column. -/
theorem mkRecords_eq (idx : List Nat) (names : List String)
    (m : List (List Bool)) (msg : String) (minFailures : Nat) (useMaskOnly : Bool) :
    mkRecords idx names m msg minFailures useMaskOnly =
      colRecordsFrom idx names msg minFailures useMaskOnly 0 m := by
  rw [mkRecords, blocks_eq_colBlocks, colBlocks_filterMap]

/-! ## Claim theorems -/

/-- Claim C1: for every boolean failure matrix, the block-extraction step of
`_append_test_results` produces, per column, exactly the maximal contiguous
runs of true cells: a run starts at index `s` iff `mask[s]` is true and (`s`
is the first index or `mask[s-1]` is false); a run ends at index `t` iff
`mask[t]` is true and (`t` is the last index or `mask[t+1]` is false); the
runs are non-overlapping; and the sum of the run lengths over the whole
matrix equals the number of true cells of the matrix. -/
theorem C1_block_extraction (cols : List (List Bool)) :
    (∀ col ∈ cols,
      (∀ s, (∃ t, (s, t) ∈ extractRunsCol col) ↔
          (col.getD s false = true ∧ (s = 0 ∨ col.getD (s - 1) false = false))) ∧
      (∀ t, (∃ s, (s, t) ∈ extractRunsCol col) ↔
          (col.getD t false = true ∧
            (t + 1 = col.length ∨ col.getD (t + 1) false = false))) ∧
      (extractRunsCol col).Pairwise (fun p q => p.2 < q.1) ∧
      (∀ p ∈ extractRunsCol col, p.1 ≤ p.2)) ∧
    ((blocks cols).map fun q => q.2.1 - q.1.1 + 1).sum =
      (cols.map (List.count true)).sum := by
  constructor
  · intro col _
    refine ⟨?_, ?_, ?_, ?_⟩
    · intro s
      have hmem : (∃ t, (s, t) ∈ extractRunsCol col) ↔
          s ∈ (extractRunsCol col).map Prod.fst := by
        simp only [List.mem_map]
        constructor
        · rintro ⟨t, ht⟩; exact ⟨(s, t), ht, rfl⟩
        · rintro ⟨p, hp, hps⟩; exact ⟨p.2, by simpa [← hps] using hp⟩
      rw [hmem, extract_map_fst, mem_trueIdxFrom]
      rw [startsFrom_getD]
      constructor
      · rintro ⟨-, -, h3⟩
        rcases Bool.and_eq_true_iff.mp h3 with ⟨h4, h5⟩
        simp only [Nat.sub_zero] at h4 h5 ⊢
        refine ⟨h4, ?_⟩
        by_cases hs : s = 0
        · exact Or.inl hs
        · simp [hs] at h5
          exact Or.inr (by simpa using h5)
      · rintro ⟨h1, h2⟩
        have hlen : s < col.length := by
          by_contra hc
          rw [List.getD_eq_default _ _ (by omega)] at h1
          exact Bool.false_ne_true h1
        refine ⟨Nat.zero_le _, by simpa [startsFrom_length] using hlen, ?_⟩
        simp only [Nat.sub_zero]
        have hprev : (if s = 0 then false else col.getD (s - 1) false) = false := by
          rcases h2 with h2 | h2
          · rw [if_pos h2]
          · by_cases hs : s = 0
            · rw [if_pos hs]
            · rw [if_neg hs]; exact h2
        rw [h1, hprev]
        rfl
    · intro t
      have hmem : (∃ s, (s, t) ∈ extractRunsCol col) ↔
          t ∈ (extractRunsCol col).map Prod.snd := by
        simp only [List.mem_map]
        constructor
        · rintro ⟨s, hs⟩; exact ⟨(s, t), hs, rfl⟩
        · rintro ⟨p, hp, hpt⟩; exact ⟨p.1, by simpa [← hpt] using hp⟩
      rw [hmem, extract_map_snd, mem_trueIdxFrom]
      rw [stops_getD]
      constructor
      · rintro ⟨-, hlen, h3⟩
        rcases Bool.and_eq_true_iff.mp h3 with ⟨h4, h5⟩
        simp only [Nat.sub_zero] at h4 h5 hlen
        refine ⟨h4, ?_⟩
        by_cases ht : t + 1 = col.length
        · exact Or.inl ht
        · exact Or.inr (by simpa using h5)
      · rintro ⟨h1, h2⟩
        have hlen : t < col.length := by
          by_contra hc
          rw [List.getD_eq_default _ _ (by omega)] at h1
          exact Bool.false_ne_true h1
        refine ⟨Nat.zero_le _, by simpa [stops_length] using hlen, ?_⟩
        simp only [Nat.sub_zero]
        have hnext : col.getD (t + 1) false = false := by
          rcases h2 with h2 | h2
          · exact List.getD_eq_default _ _ (by omega)
          · exact h2
        rw [h1, hnext]
        rfl
    · rw [extractRunsCol_eq_scan]
      exact scan_pairwise col 0 none trivial
    · intro p hp
      rw [extractRunsCol_eq_scan] at hp
      exact (scan_bounds col 0 none trivial p hp).1
  · rw [blocks_eq_colBlocks]
    have hgen : ∀ (m : List (List Bool)) (c : Nat),
        ((colBlocks c m).map fun q => q.2.1 - q.1.1 + 1).sum =
          (m.map (List.count true)).sum := by
      intro m
      induction m with
      | nil => intro c; rfl
      | cons col rest ih =>
        intro c
        have hcount := scan_count col 0 none trivial
        simp only [colBlocks, List.map_append, List.map_map, List.sum_append, ih,
          List.map_cons, List.sum_cons]
        simp only [sumLens] at hcount
        have heq : ((scan 0 none col).map
            ((fun q => q.2.1 - q.1.1 + 1) ∘ fun p => ((p.1, c), p.2, c))).sum =
            ((scan 0 none col).map fun p => p.2 - p.1 + 1).sum := rfl
        rw [heq, hcount]
        omega
    exact hgen cols 0

/-- Claim C1, instantiated: the matrix `[[T,T,F,T],[F,F,T,T]]` has per-column
runs with the stated boundary characterisation and total length 5. -/
theorem C1_block_extraction_witness :
    (∃ t, (0, t) ∈ extractRunsCol [true, true, false, true]) ∧
    ((blocks [[true, true, false, true], [false, false, true, true]]).map
        fun q => q.2.1 - q.1.1 + 1).sum =
      ([[true, true, false, true], [false, false, true, true]].map
        (List.count true)).sum := by
  have h := C1_block_extraction [[true, true, false, true], [false, false, true, true]]
  refine ⟨?_, h.2⟩
  exact ((h.1 [true, true, false, true] (by simp)).1 0).mpr (by decide)

theorem length_filterMap_of_isSome {α β : Type} (f : α → Option β) :
    ∀ l : List α, (∀ x ∈ l, (f x).isSome = true) → (l.filterMap f).length = l.length := by
  intro l
  induction l with
  | nil => intro _; rfl
  | cons x xs ih =>
    intro h
    rw [List.filterMap_cons]
    rcases ho : f x with _ | b
    · have hx := h x (by simp)
      rw [ho] at hx
      simp at hx
    · simp only [List.length_cons]
      rw [ih fun y hy => h y (by simp [hy])]

theorem scan_nil_of_count (col : List Bool) (h : col.count true = 0) :
    scan 0 none col = [] := by
  have hc := scan_count col 0 none trivial
  rw [h] at hc
  cases hs : scan 0 none col with
  | nil => rfl
  | cons p ps =>
    rw [hs] at hc
    simp [sumLens] at hc

theorem colBlocks_nil : ∀ (cols : List (List Bool)) (c : Nat),
    (∀ col ∈ cols, scan 0 none col = []) → colBlocks c cols = [] := by
  intro cols
  induction cols with
  | nil => intro c _; rfl
  | cons col rest ih =>
    intro c h
    simp only [colBlocks, h col (by simp), List.map_nil, List.nil_append]
    exact ih (c + 1) fun col2 h2 => h col2 (by simp [h2])

/-- An all-pass matrix produces no records. -/
theorem mkRecords_nil_of_count (idx : List Nat) (m : BoolMat) (msg : String)
    (k : Nat) (u : Bool) (h : totalCount m = 0) :
    mkRecords idx (m.map Prod.fst) (m.map Prod.snd) msg k u = [] := by
  have hall : ∀ col ∈ m.map Prod.snd, scan 0 none col = [] := by
    intro col hcol
    obtain ⟨nc, hnc, hs⟩ := List.mem_map.mp hcol
    apply scan_nil_of_count
    have hz := (List.sum_eq_zero_iff.mp h) (nc.2.count true)
      (List.mem_map.mpr ⟨nc, hnc, rfl⟩)
    rw [hs] at hz
    exact hz
  unfold mkRecords
  rw [blocks_eq_colBlocks, colBlocks_nil _ _ hall]
  rfl

/-- `_append_test_results` only extends `test_results`; every other field of
the engine is untouched (the early return on an all-pass matrix appends
nothing). -/
theorem appendTestResults_eq (e : Engine) (idx : List Nat) (m : BoolMat)
    (msg : String) (k : Nat) (u : Bool) :
    appendTestResults e idx m msg k u =
      { e with
        test_results := e.test_results ++
          mkRecords idx ((applyTimeFilter e.tfilter m).map Prod.fst)
            ((applyTimeFilter e.tfilter m).map Prod.snd) msg k u } := by
  unfold appendTestResults
  by_cases h : totalCount (applyTimeFilter e.tfilter m) = 0
  · rw [if_pos h, mkRecords_nil_of_count _ _ _ _ _ h, List.append_nil]
  · rw [if_neg h]

/-! Concrete engines shared by the witnesses and counterexamples. -/

def engW : Engine :=
  { index := [0, 1, 2], cols := [("A", [some 1, some 20, some 2])],
    trans := [("A", ["A"])], tfilter := [], test_results := [] }

def engEmpty : Engine :=
  { index := [], cols := [], trans := [], tfilter := [], test_results := [] }

def engNull : Engine :=
  { index := [0, 1], cols := [("A", [none, none])],
    trans := [("A", ["A"])], tfilter := [], test_results := [] }

def engConst : Engine :=
  { index := [0, 1], cols := [("A", [some 5, some 5])],
    trans := [("A", ["A"])], tfilter := [], test_results := [] }

def engGap : Engine :=
  { index := [0, 2], cols := [("A", [some 1, some 3])],
    trans := [("A", ["A"])], tfilter := [], test_results := [] }

/-- Claim C2: with no time filter set, `_append_test_results` records one
interval per extracted run iff the run's inclusive length (stop − start + 1)
is at least `min_failures`; with `min_failures = 1` every extracted run is
recorded; and no recorded interval has fewer than `min_failures`
timesteps. -/
theorem C2_min_failures (e : Engine) (idx : List Nat) (m : BoolMat)
    (msg : String) (k : Nat) (u : Bool) (htf : e.tfilter = []) :
    ∃ news,
      (appendTestResults e idx m msg k u).test_results = e.test_results ++ news ∧
      (∀ r ∈ news, k ≤ r.timesteps) ∧
      (∀ q ∈ blocks (m.map Prod.snd), k ≤ q.2.1 - q.1.1 + 1 →
        ∃ r ∈ news, r.startTime = idx.getD q.1.1 0 ∧ r.endTime = idx.getD q.2.1 0 ∧
          r.timesteps = q.2.1 - q.1.1 + 1 ∧ r.errorFlag = msg) ∧
      (∀ r ∈ news, ∃ q ∈ blocks (m.map Prod.snd),
        k ≤ q.2.1 - q.1.1 + 1 ∧ r.startTime = idx.getD q.1.1 0 ∧
          r.endTime = idx.getD q.2.1 0 ∧ r.timesteps = q.2.1 - q.1.1 + 1) ∧
      (k = 1 → news.length = (blocks (m.map Prod.snd)).length) := by
  have htfa : applyTimeFilter e.tfilter m = m := by
    rw [htf]; rfl
  refine ⟨mkRecords idx (m.map Prod.fst) (m.map Prod.snd) msg k u, ?_, ?_, ?_, ?_, ?_⟩
  · rw [appendTestResults_eq, htfa]
  · intro r hr
    obtain ⟨q, _, hq2⟩ := List.mem_filterMap.mp hr
    by_cases hk : k ≤ q.2.1 - q.1.1 + 1
    · rw [if_pos hk] at hq2
      cases hq2
      exact hk
    · rw [if_neg hk] at hq2
      cases hq2
  · intro q hq hk
    refine ⟨_, List.mem_filterMap.mpr ⟨q, hq, by rw [if_pos hk]⟩, rfl, rfl, rfl, rfl⟩
  · intro r hr
    obtain ⟨q, hq1, hq2⟩ := List.mem_filterMap.mp hr
    by_cases hk : k ≤ q.2.1 - q.1.1 + 1
    · rw [if_pos hk] at hq2
      cases hq2
      exact ⟨q, hq1, hk, rfl, rfl, rfl⟩
    · rw [if_neg hk] at hq2
      cases hq2
  · intro hk
    subst hk
    unfold mkRecords
    apply length_filterMap_of_isSome
    intro q _
    rw [if_pos (by omega)]
    rfl

/-- Claim C2, instantiated at a concrete matrix with runs of lengths 2 and 1
and `min_failures = 2`. -/
theorem C2_min_failures_witness :
    ∃ news,
      (appendTestResults engW [0, 1, 2] [("A", [true, true, false])] "m" 2 false).test_results =
        engW.test_results ++ news ∧ ∀ r ∈ news, 2 ≤ r.timesteps := by
  obtain ⟨news, h1, h2, -, -, -⟩ :=
    C2_min_failures engW [0, 1, 2] [("A", [true, true, false])] "m" 2 false rfl
  exact ⟨news, h1, h2⟩

/-! ## Algebra of the aggregate-mask fold (for claim C3) -/

/-- One boolean cell of a named boolean matrix. -/
def cellAt (m : BoolMat) (ci t : Nat) : Option Bool :=
  m[ci]?.bind fun nc => nc.2[t]?

theorem zipWith_zip_same {β : Type} (f g : Nat → β → β) :
    ∀ (idx : List Nat) (col : List β),
      List.zipWith f idx (List.zipWith g idx col) =
        List.zipWith (fun t b => f t (g t b)) idx col := by
  intro idx
  induction idx with
  | nil => intro col; rfl
  | cons t ts ih =>
    intro col
    cases col with
    | nil => rfl
    | cons b bs => simp [ih]

/-- The per-record punch condition. -/
def punchCell (r : TestRecord) : Nat → Bool → Bool :=
  fun t b => if r.startTime ≤ t ∧ t ≤ r.endTime then false else b

/-- `punch` in a normalised form that always rebuilds the pair. -/
theorem punch_eq_norm (idx : List Nat) (r : TestRecord) (m : BoolMat) :
    punch idx r m = m.map fun nc =>
      (nc.1, if nc.1 == r.varName then List.zipWith (punchCell r) idx nc.2 else nc.2) := by
  unfold punch punchCell
  congr 1
  funext nc
  by_cases h : (nc.1 == r.varName) = true
  · rw [if_pos h, if_pos h]
  · rw [if_neg h, if_neg h]

theorem punch_comm (idx : List Nat) (r1 r2 : TestRecord) (m : BoolMat) :
    punch idx r1 (punch idx r2 m) = punch idx r2 (punch idx r1 m) := by
  have hfe : (fun (t : Nat) (b : Bool) => punchCell r1 t (punchCell r2 t b)) =
      (fun (t : Nat) (b : Bool) => punchCell r2 t (punchCell r1 t b)) := by
    funext t b
    unfold punchCell
    by_cases hc1 : r1.startTime ≤ t ∧ t ≤ r1.endTime <;>
      by_cases hc2 : r2.startTime ≤ t ∧ t ≤ r2.endTime <;>
        simp [hc1, hc2]
  simp only [punch_eq_norm, List.map_map]
  congr 1
  funext nc
  simp only [Function.comp]
  congr 1
  by_cases h1 : (nc.1 == r1.varName) = true <;>
    by_cases h2 : (nc.1 == r2.varName) = true
  · rw [if_pos h1, if_pos h2, if_pos h1, if_pos h2,
      zipWith_zip_same, zipWith_zip_same, hfe]
  · rw [if_pos h1, if_neg h2, if_pos h1, if_neg h2]
  · rw [if_neg h1, if_pos h2, if_neg h1, if_pos h2]
  · rw [if_neg h1, if_neg h2, if_neg h1, if_neg h2]

theorem punch_idem (idx : List Nat) (r : TestRecord) (m : BoolMat) :
    punch idx r (punch idx r m) = punch idx r m := by
  have hfe : (fun (t : Nat) (b : Bool) => punchCell r t (punchCell r t b)) =
      punchCell r := by
    funext t b
    unfold punchCell
    by_cases hc : r.startTime ≤ t ∧ t ≤ r.endTime <;> simp [hc]
  simp only [punch_eq_norm, List.map_map]
  congr 1
  funext nc
  simp only [Function.comp]
  congr 1
  by_cases h : (nc.1 == r.varName) = true
  · rw [if_pos h, if_pos h, zipWith_zip_same, hfe]
  · rw [if_neg h, if_neg h]

/-- `punch` reads only the variable name and the two timestamps of the
record. -/
theorem punch_congr (idx : List Nat) (r r' : TestRecord) (hv : r'.varName = r.varName)
    (hs : r'.startTime = r.startTime) (he : r'.endTime = r.endTime) :
    punch idx r' = punch idx r := by
  funext m
  unfold punch
  rw [hv, hs, he]

theorem punch_foldl (idx : List Nat) (r : TestRecord) :
    ∀ (rs : List TestRecord) (base : BoolMat),
      punch idx r (rs.foldl (fun acc x => punch idx x acc) base) =
        rs.foldl (fun acc x => punch idx x acc) (punch idx r base) := by
  intro rs
  induction rs with
  | nil => intro base; rfl
  | cons x xs ih =>
    intro base
    simp only [List.foldl_cons]
    rw [ih, punch_comm]

theorem punch_mem_foldl (idx : List Nat) (r : TestRecord) :
    ∀ (rs : List TestRecord) (base : BoolMat), r ∈ rs →
      punch idx r (rs.foldl (fun acc x => punch idx x acc) base) =
        rs.foldl (fun acc x => punch idx x acc) base := by
  intro rs
  induction rs with
  | nil => intro base h; simp at h
  | cons x xs ih =>
    intro base h
    simp only [List.foldl_cons]
    rcases List.mem_cons.mp h with h | h
    · subst h
      rw [punch_foldl, punch_idem, ← punch_foldl]
    · exact ih (punch idx x base) h

/-- Punching can only clear cells, never set them. -/
theorem punch_le (idx : List Nat) (r : TestRecord) (m : BoolMat) (ci t : Nat)
    (h : cellAt (punch idx r m) ci t = some true) : cellAt m ci t = some true := by
  rw [punch_eq_norm] at h
  unfold cellAt at h ⊢
  rw [List.getElem?_map] at h
  cases hm : m[ci]? with
  | none => rw [hm] at h; simp at h
  | some nc =>
    rw [hm] at h
    have h2 : (if (nc.1 == r.varName) = true then
        List.zipWith (punchCell r) idx nc.2 else nc.2)[t]? = some true := h
    by_cases hv : (nc.1 == r.varName) = true
    · rw [if_pos hv] at h2
      rw [List.getElem?_zipWith] at h2
      cases hi : idx[t]? with
      | none =>
        rw [hi] at h2
        have h3 : (none : Option Bool) = some true := by
          cases hc : nc.2[t]? <;> rw [hc] at h2 <;> exact h2
        cases h3
      | some a =>
        rw [hi] at h2
        cases hc : nc.2[t]? with
        | none =>
          rw [hc] at h2
          cases h2
        | some b =>
          rw [hc] at h2
          have h3 : punchCell r a b = true := Option.some.inj h2
          unfold punchCell at h3
          by_cases hcond : r.startTime ≤ a ∧ a ≤ r.endTime
          · rw [if_pos hcond] at h3
            cases h3
          · rw [if_neg hcond] at h3
            show nc.2[t]? = some true
            rw [hc, h3]
    · rw [if_neg hv] at h2
      show nc.2[t]? = some true
      exact h2

theorem foldl_punch_le (idx : List Nat) :
    ∀ (extra : List TestRecord) (base : BoolMat) (ci t : Nat),
      cellAt (extra.foldl (fun acc x => punch idx x acc) base) ci t = some true →
      cellAt base ci t = some true := by
  intro extra
  induction extra with
  | nil => intro base ci t h; exact h
  | cons x xs ih =>
    intro base ci t h
    simp only [List.foldl_cons] at h
    exact punch_le idx x base ci t (ih (punch idx x base) ci t h)

/-- Claim C3: appending a second copy of an already-recorded interval (same
variable name, start time and end time) grows `test_results` by one but
leaves the computed aggregate mask unchanged, and folding extra intervals
only ever turns mask cells from pass (`true`) to fail (`false`), never the
other way. -/
theorem C3_mask_fold_idempotent (e : Engine) (r r' : TestRecord)
    (hmem : r ∈ e.test_results) (hv : r'.varName = r.varName)
    (hs : r'.startTime = r.startTime) (he : r'.endTime = r.endTime) :
    ({ e with test_results := e.test_results ++ [r'] } : Engine).test_results.length =
      e.test_results.length + 1 ∧
    mask { e with test_results := e.test_results ++ [r'] } = mask e ∧
    (∀ (extra : List TestRecord) (ci t : Nat),
      cellAt (maskMatrix { e with test_results := e.test_results ++ extra }) ci t =
        some true →
      cellAt (maskMatrix e) ci t = some true) := by
  have hmm : ∀ (extra : List TestRecord),
      maskMatrix { e with test_results := e.test_results ++ extra } =
        extra.foldl (fun acc x => punch e.index x acc) (maskMatrix e) := by
    intro extra
    unfold maskMatrix
    exact List.foldl_append _ _ _ _
  refine ⟨by simp, ?_, ?_⟩
  · have h2 : maskMatrix { e with test_results := e.test_results ++ [r'] } =
        maskMatrix e := by
      rw [hmm]
      simp only [List.foldl_cons, List.foldl_nil]
      have := punch_congr e.index r r' hv hs he
      rw [this]
      unfold maskMatrix
      exact punch_mem_foldl e.index r e.test_results _ hmem
    unfold mask
    rw [h2]
    have hde : dfEmpty { e with test_results := e.test_results ++ [r'] } = dfEmpty e :=
      rfl
    rw [hde]
  · intro extra ci t h
    rw [hmm] at h
    exact foldl_punch_le e.index extra (maskMatrix e) ci t h

/-- A concrete engine with one recorded interval. -/
def engR : Engine :=
  { index := [0, 1, 2], cols := [("A", [some 1, some 20, some 2])],
    trans := [("A", ["A"])], tfilter := [],
    test_results := [{ varName := "A", startTime := 0, endTime := 1,
                       timesteps := 2, errorFlag := "m" }] }

/-- Claim C3, instantiated: re-recording the interval on variable "A" over
`[0, 1]` (with a different message) leaves the aggregate mask of a concrete
engine unchanged while the result list grows. -/
theorem C3_mask_fold_idempotent_witness :
    ({ engR with test_results := engR.test_results ++
        [{ varName := "A", startTime := 0, endTime := 1, timesteps := 2,
           errorFlag := "m2" }] } : Engine).test_results.length =
      engR.test_results.length + 1 ∧
    mask { engR with test_results := engR.test_results ++
        [{ varName := "A", startTime := 0, endTime := 1, timesteps := 2,
           errorFlag := "m2" }] } = mask engR := by
  have h := C3_mask_fold_idempotent engR
    { varName := "A", startTime := 0, endTime := 1, timesteps := 2, errorFlag := "m" }
    { varName := "A", startTime := 0, endTime := 1, timesteps := 2, errorFlag := "m2" }
    (by decide) rfl rfl rfl
  exact ⟨h.1, h.2.1⟩

/-- Claim C4 (amended): in `check_delta` a rolling window with fewer than two
non-absent samples never produces a failure (its delta is NaN and NaN
compares false against either bound); but an ambiguous window whose min and
max occur at the same timestamp is NOT silently dropped: the exact-position
back-mapping takes the `else` branch of `extract_exact_position` and marks
that single shared timestamp as failing. -/
theorem C4_delta_window (idx : List Nat) (w : Nat) (c : DataCol) (p : Nat)
    (absV : Bool) (q : Rat) :
    ((windowValid idx w c p).length < 2 →
      deltaDiff absV idx w c p = none ∧
      optLt (deltaDiff absV idx w c p) q = false ∧
      optGt (deltaDiff absV idx w c p) q = false) ∧
    (∀ (t0 : Nat) (rc : Nat × Nat) (m : List (List Bool)) (col : List Bool) (j : Nat),
      m.get? rc.2 = some col → j < col.length → j < idx.length →
      idx.getD j 0 = t0 →
      ∃ col2, (applyExact idx (some t0) (some t0) rc m).get? rc.2 = some col2 ∧
        col2.get? j = some true) := by
  constructor
  · intro hlt
    have hmax : fMax idx w c p = none := by
      unfold fMax
      rw [if_pos hlt]
    have hd : deltaDiff absV idx w c p = none := by
      unfold deltaDiff
      rw [hmax]
    exact ⟨hd, by rw [hd]; rfl, by rw [hd]; rfl⟩
  · intro t0 rc m col j hm hj hji hidx
    unfold applyExact
    rw [hm]
    have hlen : rc.2 < m.length := by
      rcases List.get?_eq_some.mp hm with ⟨h, -⟩
      exact h
    refine ⟨List.zipWith (fun t bb => if min t0 t0 ≤ t ∧ t ≤ max t0 t0 then true else bb)
      idx (col.set rc.1 false), ?_, ?_⟩
    · rw [List.get?_eq_getElem?, List.getElem?_set_self (by simpa using hlen)]
    · have hj2 : j < (col.set rc.1 false).length := by simpa using hj
      rw [List.get?_eq_getElem?, List.getElem?_zipWith_eq_some]
      refine ⟨t0, (col.set rc.1 false).get ⟨j, hj2⟩, ?_, ?_, ?_⟩
      · rw [List.getElem?_eq_some_iff]
        refine ⟨hji, ?_⟩
        rw [← hidx]
        exact (List.getD_eq_getElem _ _ hji).symm
      · rw [List.getElem?_eq_some_iff]
        exact ⟨hj2, rfl⟩
      · have hcond : min t0 t0 ≤ t0 ∧ t0 ≤ max t0 t0 := by
          constructor <;> simp
        rw [if_pos hcond]

unseal Rat.sub in
/-- Claim C4, counterexample to the claim as stated: on the constant column
`A = [5, 5]` over timestamps `[0, 1]` with window 10 and lower bound 1, the
window ending at position 1 has its min and max at the same timestamp 0, yet
`check_delta` records a failure interval (at that timestamp) instead of
dropping the case. -/
theorem C4_counterexample :
    fIdxMin engConst.index 10 [some 5, some 5] 1 = some 0 ∧
    fIdxMax engConst.index 10 [some 5, some 5] 1 = some 0 ∧
    optLt (deltaDiff true engConst.index 10 [some 5, some 5] 1) 1 = true ∧
    (∃ e2, check_delta engConst [PyVal.num 1, PyVal.pynone] none 10 true 1 =
        Except.ok (e2, [PyVal.num 1, PyVal.pynone]) ∧
      e2.test_results =
        [TestRecord.mk "A" 0 0 1 "|Delta| < lower bound, 1"]) := by
  refine ⟨by decide, by decide, by decide, ⟨_, rfl, by decide⟩⟩

/-- Claim C4 (amended), instantiated: a length-1 window produces no flag, and
a coincident min/max timestamp marks exactly that timestamp. -/
theorem C4_delta_window_witness :
    ((windowValid [0, 1] 1 [some 5, some 5] 0).length < 2 ∧
      deltaDiff true [0, 1] 1 [some 5, some 5] 0 = none) ∧
    ∃ col2, (applyExact [0, 1] (some 0) (some 0) (1, 0) [[false, false]]).get? 0 =
        some col2 ∧ col2.get? 0 = some true := by
  have h := C4_delta_window [0, 1] 1 [some 5, some 5] 0 true 1
  refine ⟨⟨by decide, (h.1 (by decide)).1⟩, ?_⟩
  exact h.2 0 (1, 0) [[false, false]] [false, false] 0 rfl (by decide) (by decide) rfl

/-- `_setup_data` returns the no-data sentinel on an empty dataset or an
unknown translation key. -/
theorem setupData_none (e : Engine) (key : Option String)
    (h : dfEmpty e = true ∨
      ∃ k, key = some k ∧ e.trans.find? (fun t => t.1 == k) = none) :
    setupData e key = none := by
  unfold setupData
  rcases h with h | ⟨k, hk, hf⟩
  · rw [if_pos h]
  · subst hk
    by_cases hde : dfEmpty e = true
    · rw [if_pos hde]
    · rw [if_neg hde]
      dsimp only
      rw [hf]

/-- Claim C7: calling any detector with an unknown translation key or on an
empty dataset is a recoverable no-op: the call returns `ok` (never raises),
records no new intervals, and leaves the engine — dataset included —
unchanged. -/
theorem C7_unknown_key_noop (e : Engine) (key : Option String) (bound : List PyVal)
    (inc : Nat) (absV : Bool) (minF : Nat) (sqrtFn : Rat → Rat) (w : Nat)
    (wOpt : Option Nat) (cv : List Rat) (freq : Nat) (es ee : Option Nat) (ex : Bool)
    (h : dfEmpty e = true ∨
      ∃ k, key = some k ∧ e.trans.find? (fun t => t.1 == k) = none) :
    check_range e bound key minF = Except.ok (e, bound) ∧
    check_increment e bound key inc absV minF = Except.ok (e, bound) ∧
    check_delta e bound key w absV minF = Except.ok (e, bound) ∧
    check_outlier sqrtFn e bound key wOpt absV minF = Except.ok (e, bound) ∧
    check_missing e key minF = e ∧
    check_corrupt e cv key minF = e ∧
    (dfEmpty e = true → check_timestamp e freq es ee minF ex = e) := by
  have hs := setupData_none e key h
  refine ⟨?_, ?_, ?_, ?_, ?_, ?_, ?_⟩
  · unfold check_range
    rw [hs]
  · unfold check_increment
    rw [hs]
  · unfold check_delta
    rw [hs]
  · unfold check_outlier
    rw [hs]
  · unfold check_missing
    rw [hs]
  · unfold check_corrupt
    rw [hs]
  · intro hde
    unfold check_timestamp
    rw [if_pos hde]

/-- Claim C7, instantiated on the empty engine and on an unknown key "B". -/
theorem C7_unknown_key_noop_witness :
    check_range engEmpty [PyVal.num 0, PyVal.num 1] none 1 =
      Except.ok (engEmpty, [PyVal.num 0, PyVal.num 1]) ∧
    check_corrupt engW [0] (some "B") 1 = engW := by
  constructor
  · exact (C7_unknown_key_noop engEmpty none [PyVal.num 0, PyVal.num 1]
      1 true 1 id 1 none [] 1 none none true (Or.inl rfl)).1
  · exact (C7_unknown_key_noop engW (some "B") [PyVal.num 0, PyVal.num 1]
      1 true 1 id 1 none [0] 1 none none true
      (Or.inr ⟨"B", rfl, by decide⟩)).2.2.2.2.2.1

/-- Claim C8: the claim describes the intended behaviour (skip an all-absent
column with a warning, never raise); the code instead raises `TypeError` on
the default `key=None` when the frame is all-null, because it evaluates
`"..." + key` (string plus `None`) while building the warning.  This theorem
evaluates the model at that failing input. -/
theorem C8_increment_allnull_raises :
    check_increment engNull [PyVal.num 0, PyVal.num 1] none 1 true 1 =
      Except.error () ∧
    check_increment engNull [PyVal.num 0, PyVal.num 1] (some "A") 1 true 1 =
      Except.ok (engNull, [PyVal.num 0, PyVal.num 1]) := by
  constructor <;> rfl

/-- Claim C9: on an engine with no data, the `mask` property returns the
no-data sentinel `None` (not an empty boolean table), and `cleaned_data` —
which subscripts the frame with that `None` — raises instead of returning an
empty table. -/
theorem C9_empty_mask_sentinel (e : Engine) (h : dfEmpty e = true) :
    mask e = none ∧ cleaned_data e = Except.error () := by
  have h1 : mask e = none := by
    unfold mask
    rw [if_pos h]
  refine ⟨h1, ?_⟩
  unfold cleaned_data
  rw [h1]

/-- Claim C9, instantiated at the freshly constructed (empty) engine. -/
theorem C9_empty_mask_sentinel_witness :
    mask engEmpty = none ∧ cleaned_data engEmpty = Except.error () :=
  C9_empty_mask_sentinel engEmpty rfl

/-! ## Frame lemmas: which fields each detector can touch -/

theorem boundStep_ok (e : Engine) (data : List (String × DataCol)) (b : PyVal)
    (msg : Rat → String) (cmp : Option Rat → Rat → Bool) (k : Nat) :
    ∀ e1, boundStep e data b msg cmp k = Except.ok e1 →
      e1.index = e.index ∧ e1.cols = e.cols ∧ e1.trans = e.trans ∧
      e1.tfilter = e.tfilter ∧ ∃ news, e1.test_results = e.test_results ++ news := by
  intro e1 h
  unfold boundStep at h
  cases b with
  | pynone =>
    cases h
    exact ⟨rfl, rfl, rfl, rfl, [], (List.append_nil _).symm⟩
  | num q =>
    cases h
    rw [appendTestResults_eq]
    exact ⟨rfl, rfl, rfl, rfl, _, rfl⟩
  | str s => cases h
  | emptyList => cases h
  | emptyDict => cases h

theorem generate_ok (e : Engine) (data : List (String × DataCol))
    (bound : List PyVal) (k : Nat) (ew : String) :
    ∀ res, generate_test_results e data bound k ew = Except.ok res →
      res.1.index = e.index ∧ res.1.cols = e.cols ∧ res.1.trans = e.trans ∧
      res.1.tfilter = e.tfilter ∧
      (∃ news, res.1.test_results = e.test_results ++ news) ∧
      res.2 = bound.map normalizePyVal := by
  intro res h
  unfold generate_test_results at h
  dsimp only at h
  cases hg0 : (bound.map normalizePyVal).get? 0 with
  | none =>
    rw [hg0] at h
    cases h
  | some b0 =>
    rw [hg0] at h
    dsimp only at h
    cases hb1 : boundStep e data b0 (lowerMsg ew) optLt k with
    | error u =>
      rw [hb1] at h
      cases h
    | ok e1 =>
      rw [hb1] at h
      dsimp only at h
      cases hg1 : (bound.map normalizePyVal).get? 1 with
      | none =>
        rw [hg1] at h
        cases h
      | some b1 =>
        rw [hg1] at h
        dsimp only at h
        cases hb2 : boundStep e1 data b1 (upperMsg ew) optGt k with
        | error u =>
          rw [hb2] at h
          cases h
        | ok e2 =>
          rw [hb2] at h
          dsimp only at h
          cases h
          obtain ⟨hi1, hc1, ht1, hf1, n1, hr1⟩ := boundStep_ok e data b0 _ _ k e1 hb1
          obtain ⟨hi2, hc2, ht2, hf2, n2, hr2⟩ := boundStep_ok e1 data b1 _ _ k e2 hb2
          refine ⟨hi2.trans hi1, hc2.trans hc1, ht2.trans ht1, hf2.trans hf1,
            ⟨n1 ++ n2, ?_⟩, rfl⟩
          rw [hr2, hr1, List.append_assoc]

theorem check_range_ok (e : Engine) (bound : List PyVal) (key : Option String)
    (k : Nat) :
    ∀ res, check_range e bound key k = Except.ok res →
      res.1.index = e.index ∧ res.1.cols = e.cols ∧ res.1.trans = e.trans ∧
      res.1.tfilter = e.tfilter ∧
      (∃ news, res.1.test_results = e.test_results ++ news) ∧
      (∀ data, setupData e key = some data → res.2 = bound.map normalizePyVal) := by
  intro res h
  unfold check_range at h
  cases hs : setupData e key with
  | none =>
    rw [hs] at h
    cases h
    refine ⟨rfl, rfl, rfl, rfl, ⟨[], (List.append_nil _).symm⟩, ?_⟩
    intro data hd
    cases hd
  | some data =>
    rw [hs] at h
    obtain ⟨h1, h2, h3, h4, h5, h6⟩ := generate_ok e data bound k "Data" res h
    exact ⟨h1, h2, h3, h4, h5, fun _ _ => h6⟩

theorem check_increment_ok (e : Engine) (bound : List PyVal) (key : Option String)
    (inc : Nat) (absV : Bool) (k : Nat) :
    ∀ res, check_increment e bound key inc absV k = Except.ok res →
      res.1.index = e.index ∧ res.1.cols = e.cols ∧ res.1.trans = e.trans ∧
      res.1.tfilter = e.tfilter ∧
      (∃ news, res.1.test_results = e.test_results ++ news) ∧
      (∀ data, setupData e key = some data → allNull data = false →
        res.2 = bound.map normalizePyVal) := by
  intro res h
  unfold check_increment at h
  cases hs : setupData e key with
  | none =>
    rw [hs] at h
    cases h
    refine ⟨rfl, rfl, rfl, rfl, ⟨[], (List.append_nil _).symm⟩, ?_⟩
    intro data hd
    cases hd
  | some data =>
    rw [hs] at h
    dsimp only at h
    by_cases hn : allNull data = true
    · rw [if_pos hn] at h
      cases key with
      | none => cases h
      | some kk =>
        cases h
        refine ⟨rfl, rfl, rfl, rfl, ⟨[], (List.append_nil _).symm⟩, ?_⟩
        intro data2 hd hn2
        cases hd
        rw [hn] at hn2
        cases hn2
    · rw [if_neg hn] at h
      obtain ⟨h1, h2, h3, h4, h5, h6⟩ := generate_ok e _ bound k _ res h
      exact ⟨h1, h2, h3, h4, h5, fun _ _ _ => h6⟩

theorem deltaBoundStep_ok (e : Engine) (data : List (String × DataCol)) (w : Nat)
    (absV : Bool) (b : PyVal) (msg : Rat → String)
    (cmp : Option Rat → Rat → Bool) (k : Nat) :
    ∀ e1, deltaBoundStep e data w absV b msg cmp k = Except.ok e1 →
      e1.index = e.index ∧ e1.cols = e.cols ∧ e1.trans = e.trans ∧
      e1.tfilter = e.tfilter ∧ ∃ news, e1.test_results = e.test_results ++ news := by
  intro e1 h
  unfold deltaBoundStep at h
  cases b with
  | pynone =>
    cases h
    exact ⟨rfl, rfl, rfl, rfl, [], (List.append_nil _).symm⟩
  | num q =>
    dsimp only at h
    by_cases hc : totalCountCols (applyTFCols e.tfilter
        (data.map fun nc =>
          (List.range nc.2.length).map fun p =>
            cmp (deltaDiff absV e.index w nc.2 p) q)) = 0
    · rw [if_pos hc] at h
      cases h
      exact ⟨rfl, rfl, rfl, rfl, [], (List.append_nil _).symm⟩
    · rw [if_neg hc] at h
      cases h
      rw [appendTestResults_eq]
      exact ⟨rfl, rfl, rfl, rfl, _, rfl⟩
  | str s => cases h
  | emptyList => cases h
  | emptyDict => cases h

theorem check_delta_ok (e : Engine) (bound : List PyVal) (key : Option String)
    (w : Nat) (absV : Bool) (k : Nat) :
    ∀ res, check_delta e bound key w absV k = Except.ok res →
      res.1.index = e.index ∧ res.1.cols = e.cols ∧ res.1.trans = e.trans ∧
      res.1.tfilter = e.tfilter ∧
      (∃ news, res.1.test_results = e.test_results ++ news) ∧
      (∀ data, setupData e key = some data → res.2 = bound.map normalizePyVal) := by
  intro res h
  unfold check_delta at h
  cases hs : setupData e key with
  | none =>
    rw [hs] at h
    cases h
    refine ⟨rfl, rfl, rfl, rfl, ⟨[], (List.append_nil _).symm⟩, ?_⟩
    intro data hd
    cases hd
  | some data =>
    rw [hs] at h
    dsimp only at h
    cases hg0 : (bound.map normalizePyVal).get? 0 with
    | none =>
      rw [hg0] at h
      cases h
    | some b0 =>
      rw [hg0] at h
      dsimp only at h
      cases hb1 : deltaBoundStep e data w absV b0
          (lowerMsg (if absV then "|Delta|" else "Delta")) optLt k with
      | error u =>
        rw [hb1] at h
        cases h
      | ok e1 =>
        rw [hb1] at h
        dsimp only at h
        cases hg1 : (bound.map normalizePyVal).get? 1 with
        | none =>
          rw [hg1] at h
          cases h
        | some b1 =>
          rw [hg1] at h
          dsimp only at h
          cases hb2 : deltaBoundStep e1 data w absV b1
              (upperMsg (if absV then "|Delta|" else "Delta")) optGt k with
          | error u =>
            rw [hb2] at h
            cases h
          | ok e2 =>
            rw [hb2] at h
            dsimp only at h
            cases h
            obtain ⟨hi1, hc1, ht1, hf1, n1, hr1⟩ := deltaBoundStep_ok e data w absV b0 _ _ k e1 hb1
            obtain ⟨hi2, hc2, ht2, hf2, n2, hr2⟩ := deltaBoundStep_ok e1 data w absV b1 _ _ k e2 hb2
            refine ⟨hi2.trans hi1, hc2.trans hc1, ht2.trans ht1, hf2.trans hf1,
              ⟨n1 ++ n2, ?_⟩, fun _ _ => rfl⟩
            rw [hr2, hr1, List.append_assoc]

theorem check_outlier_ok (sqrtFn : Rat → Rat) (e : Engine) (bound : List PyVal)
    (key : Option String) (wOpt : Option Nat) (absV : Bool) (k : Nat) :
    ∀ res, check_outlier sqrtFn e bound key wOpt absV k = Except.ok res →
      res.1.index = e.index ∧ res.1.cols = e.cols ∧ res.1.trans = e.trans ∧
      res.1.tfilter = e.tfilter ∧
      (∃ news, res.1.test_results = e.test_results ++ news) ∧
      (∀ data, setupData e key = some data → res.2 = bound.map normalizePyVal) := by
  intro res h
  unfold check_outlier at h
  cases hs : setupData e key with
  | none =>
    rw [hs] at h
    cases h
    refine ⟨rfl, rfl, rfl, rfl, ⟨[], (List.append_nil _).symm⟩, ?_⟩
    intro data hd
    cases hd
  | some data =>
    rw [hs] at h
    obtain ⟨h1, h2, h3, h4, h5, h6⟩ := generate_ok e _ bound k _ res h
    exact ⟨h1, h2, h3, h4, h5, fun _ _ => h6⟩

theorem check_missing_frame (e : Engine) (key : Option String) (k : Nat) :
    (check_missing e key k).index = e.index ∧
    (check_missing e key k).cols = e.cols ∧
    ∃ news, (check_missing e key k).test_results = e.test_results ++ news := by
  unfold check_missing
  cases hs : setupData e key with
  | none => exact ⟨rfl, rfl, [], (List.append_nil _).symm⟩
  | some data =>
    dsimp only
    rw [appendTestResults_eq]
    exact ⟨rfl, rfl, _, rfl⟩

theorem check_corrupt_frame (e : Engine) (cv : List Rat) (key : Option String)
    (k : Nat) :
    (check_corrupt e cv key k).index = e.index ∧
    ∃ news, (check_corrupt e cv key k).test_results = e.test_results ++ news := by
  unfold check_corrupt
  cases hs : setupData e key with
  | none => exact ⟨rfl, [], (List.append_nil _).symm⟩
  | some data =>
    dsimp only
    rw [appendTestResults_eq]
    exact ⟨rfl, _, rfl⟩

theorem exists_append3 {α : Type} (x a b c : List α) :
    ∃ n, ((x ++ a) ++ b) ++ c = x ++ n :=
  ⟨a ++ (b ++ c), by rw [List.append_assoc, List.append_assoc]⟩

theorem check_timestamp_frame (e : Engine) (freq : Nat) (es ee : Option Nat)
    (k : Nat) (ex : Bool) :
    ∃ news, (check_timestamp e freq es ee k ex).test_results =
      e.test_results ++ news := by
  unfold check_timestamp
  split
  · exact ⟨[], (List.append_nil _).symm⟩
  · dsimp only
    simp only [appendTestResults_eq]
    split <;> split
    all_goals
      dsimp only [reindexTo, dedupFirst, sortByIndex]
      exact exists_append3 _ _ _ _

/-- Claim C5 (amended): `check_range`, `check_increment`, `check_delta`,
`check_outlier` and `check_missing` leave the dataset (index and columns)
unchanged, and every detector only ever appends to the test-results
sequence, never removing or altering prior intervals; the detectors that do
mutate the dataset are `check_corrupt` (scrubbing matched cells) and
`check_timestamp` — which, beyond the duplicate-removal step named by the
claim, also sorts a non-monotonic index and, in exact mode, reindexes the
dataset onto the expected grid. -/
theorem C5_dataset_frame (e : Engine) (bound : List PyVal) (key : Option String)
    (inc : Nat) (absV : Bool) (minF : Nat) (sqrtFn : Rat → Rat) (w : Nat)
    (wOpt : Option Nat) (cv : List Rat) (freq : Nat) (es ee : Option Nat)
    (ex : Bool) :
    (∀ res, check_range e bound key minF = Except.ok res →
      res.1.index = e.index ∧ res.1.cols = e.cols ∧
      ∃ news, res.1.test_results = e.test_results ++ news) ∧
    (∀ res, check_increment e bound key inc absV minF = Except.ok res →
      res.1.index = e.index ∧ res.1.cols = e.cols ∧
      ∃ news, res.1.test_results = e.test_results ++ news) ∧
    (∀ res, check_delta e bound key w absV minF = Except.ok res →
      res.1.index = e.index ∧ res.1.cols = e.cols ∧
      ∃ news, res.1.test_results = e.test_results ++ news) ∧
    (∀ res, check_outlier sqrtFn e bound key wOpt absV minF = Except.ok res →
      res.1.index = e.index ∧ res.1.cols = e.cols ∧
      ∃ news, res.1.test_results = e.test_results ++ news) ∧
    ((check_missing e key minF).index = e.index ∧
      (check_missing e key minF).cols = e.cols ∧
      ∃ news, (check_missing e key minF).test_results = e.test_results ++ news) ∧
    (∃ news, (check_corrupt e cv key minF).test_results = e.test_results ++ news) ∧
    (∃ news, (check_timestamp e freq es ee minF ex).test_results =
      e.test_results ++ news) := by
  refine ⟨?_, ?_, ?_, ?_, check_missing_frame e key minF,
    (check_corrupt_frame e cv key minF).2, check_timestamp_frame e freq es ee minF ex⟩
  · intro res h
    obtain ⟨h1, h2, -, -, h5, -⟩ := check_range_ok e bound key minF res h
    exact ⟨h1, h2, h5⟩
  · intro res h
    obtain ⟨h1, h2, -, -, h5, -⟩ := check_increment_ok e bound key inc absV minF res h
    exact ⟨h1, h2, h5⟩
  · intro res h
    obtain ⟨h1, h2, -, -, h5, -⟩ := check_delta_ok e bound key w absV minF res h
    exact ⟨h1, h2, h5⟩
  · intro res h
    obtain ⟨h1, h2, -, -, h5, -⟩ := check_outlier_ok sqrtFn e bound key wOpt absV minF res h
    exact ⟨h1, h2, h5⟩

/-- Claim C5, counterexample to the claim as stated: on an index `[0, 2]`
with no duplicate timestamps at all, `check_timestamp` in exact mode still
changes the dataset — it reindexes onto the grid `[0, 1, 2]`, inserting an
absent row — so the duplicate-removal step is not the only way
`check_timestamp` mutates the dataset. -/
theorem C5_counterexample :
    engGap.index.Nodup ∧
    (check_timestamp engGap 1 none none 1 true).index ≠ engGap.index ∧
    (check_timestamp engGap 1 none none 1 true).cols ≠ engGap.cols := by
  refine ⟨by decide, by decide, by decide⟩

/-- Claim C5 (amended), instantiated at a concrete `check_range` call. -/
theorem C5_dataset_frame_witness :
    ∃ res, check_range engW [PyVal.num 0, PyVal.num 10] none 1 = Except.ok res ∧
      res.1.index = engW.index ∧ res.1.cols = engW.cols ∧
      ∃ news, res.1.test_results = engW.test_results ++ news := by
  obtain ⟨h1, -⟩ := C5_dataset_frame engW [PyVal.num 0, PyVal.num 10] none
    1 true 1 id 1 none [] 1 none none true
  exact ⟨_, rfl, h1 _ rfl⟩

theorem normalizePyVal_spec (v : PyVal) :
    normalizePyVal v =
      if v = PyVal.str "" ∨ v = PyVal.str "none" ∨ v = PyVal.str "None" ∨
          v = PyVal.str "NONE" ∨ v = PyVal.pynone ∨ v = PyVal.emptyList ∨
          v = PyVal.emptyDict then PyVal.pynone else v := by
  cases v <;> simp [normalizePyVal, noneList]

/-- Claim C10: on any detector call that reaches the comparison stage, the
caller's `bound` list (modelled by the returned list, the state of the
caller's argument after the call) has every entry equal to one of the
sentinels `''`, `'none'`, `'None'`, `'NONE'`, `None`, `[]`, `{}` overwritten
with `None`, and every other entry unchanged — for `check_range`,
`check_increment`, `check_delta` and `check_outlier`. -/
theorem C10_bound_mutation (e : Engine) (bound : List PyVal) (key : Option String)
    (data : List (String × DataCol)) (hs : setupData e key = some data)
    (inc : Nat) (absV : Bool) (minF : Nat) (sqrtFn : Rat → Rat) (w : Nat)
    (wOpt : Option Nat) :
    (∀ res, check_range e bound key minF = Except.ok res →
      res.2 = bound.map normalizePyVal) ∧
    (∀ res, check_increment e bound key inc absV minF = Except.ok res →
      allNull data = false → res.2 = bound.map normalizePyVal) ∧
    (∀ res, check_delta e bound key w absV minF = Except.ok res →
      res.2 = bound.map normalizePyVal) ∧
    (∀ res, check_outlier sqrtFn e bound key wOpt absV minF = Except.ok res →
      res.2 = bound.map normalizePyVal) ∧
    (∀ i v, bound.get? i = some v →
      (bound.map normalizePyVal).get? i = some
        (if v = PyVal.str "" ∨ v = PyVal.str "none" ∨ v = PyVal.str "None" ∨
            v = PyVal.str "NONE" ∨ v = PyVal.pynone ∨ v = PyVal.emptyList ∨
            v = PyVal.emptyDict then PyVal.pynone else v)) := by
  refine ⟨?_, ?_, ?_, ?_, ?_⟩
  · intro res h
    exact (check_range_ok e bound key minF res h).2.2.2.2.2 data hs
  · intro res h hn
    exact (check_increment_ok e bound key inc absV minF res h).2.2.2.2.2 data hs hn
  · intro res h
    exact (check_delta_ok e bound key w absV minF res h).2.2.2.2.2 data hs
  · intro res h
    exact (check_outlier_ok sqrtFn e bound key wOpt absV minF res h).2.2.2.2.2 data hs
  · intro i v hv
    rw [List.get?_map, hv, Option.map_some']
    rw [normalizePyVal_spec]

/-- Claim C10, instantiated: a `'none'` sentinel in the lower-bound slot is
rewritten to `None` in the caller's list by a concrete `check_range` call. -/
theorem C10_bound_mutation_witness :
    ∃ res, check_range engW [PyVal.str "none", PyVal.num 10] none 1 =
        Except.ok res ∧
      res.2 = [PyVal.pynone, PyVal.num 10] := by
  obtain ⟨h1, -⟩ := C10_bound_mutation engW [PyVal.str "none", PyVal.num 10] none
    engW.cols rfl 1 true 1 id 1 none
  refine ⟨_, rfl, ?_⟩
  rw [h1 _ rfl]
  rfl

/-! ## Cell-level view of the time filter (for claim C6) -/

/-- The per-column effect of `mask[~self.tfilter] = False`. -/
def tfCol (tf : List Bool) (col : List Bool) : List Bool :=
  if tf.isEmpty then col else List.zipWith (fun b tt => b && tt) col tf

/-- Whether the time filter lets the failure at row `t` through. -/
def tfPass (tf : List Bool) (t : Nat) : Bool :=
  if tf.isEmpty then true else tf.getD t false

theorem applyTF_map_fst (tf : List Bool) (m : BoolMat) :
    (applyTimeFilter tf m).map Prod.fst = m.map Prod.fst := by
  unfold applyTimeFilter
  by_cases h : tf.isEmpty
  · rw [if_pos h]
  · rw [if_neg h, List.map_map]
    rfl

theorem applyTF_get (tf : List Bool) (m : BoolMat) (j : Nat) :
    (applyTimeFilter tf m)[j]? = (m[j]?).map fun nc => (nc.1, tfCol tf nc.2) := by
  unfold applyTimeFilter
  by_cases h : tf.isEmpty
  · rw [if_pos h]
    have hfe : (fun (nc : String × List Bool) => (nc.1, tfCol tf nc.2)) =
        fun nc => nc := by
      funext nc
      unfold tfCol
      rw [if_pos h]
    rw [hfe]
    cases m[j]? <;> rfl
  · rw [if_neg h, List.getElem?_map]
    have hfe : (fun (nc : String × List Bool) =>
        (nc.1, List.zipWith (fun b tt => b && tt) nc.2 tf)) =
        fun nc => (nc.1, tfCol tf nc.2) := by
      funext nc
      unfold tfCol
      rw [if_neg h]
    rw [hfe]

theorem tfCol_length (tf col : List Bool)
    (htf : tf = [] ∨ tf.length = col.length) :
    (tfCol tf col).length = col.length := by
  unfold tfCol
  by_cases h : tf.isEmpty
  · rw [if_pos h]
  · rw [if_neg h, List.length_zipWith]
    rcases htf with htf | htf
    · subst htf
      simp at h
    · rw [htf]
      exact Nat.min_self _

theorem tfCol_getD (tf col : List Bool) (t : Nat) (ht : t < col.length)
    (htf : tf = [] ∨ tf.length = col.length) :
    (tfCol tf col).getD t false = (col.getD t false && tfPass tf t) := by
  unfold tfCol tfPass
  by_cases h : tf.isEmpty
  · rw [if_pos h, if_pos h, Bool.and_true]
  · rw [if_neg h, if_neg h]
    rcases htf with htf | htf
    · subst htf
      simp at h
    · have htl : t < tf.length := by omega
      rw [List.getD_eq_getElem?_getD, List.getElem?_zipWith,
        List.getElem?_eq_getElem ht, List.getElem?_eq_getElem htl]
      rw [List.getD_eq_getElem?_getD, List.getElem?_eq_getElem ht]
      rw [List.getD_eq_getElem?_getD, List.getElem?_eq_getElem htl]
      rfl

/-- Cell of a compared column: `(df cmp bound)` at row `t`. -/
theorem map_cmp_getD (col : DataCol) (f : Option Rat → Bool) (t : Nat)
    (ht : t < col.length) :
    (col.map f).getD t false = f (col.getD t none) := by
  rw [List.getD_eq_getElem?_getD, List.getElem?_map,
    List.getElem?_eq_getElem ht]
  rw [List.getD_eq_getElem?_getD, List.getElem?_eq_getElem ht]
  rfl

/-! ## Strictly increasing timestamp index -/

theorem pairwise_getD_lt (idx : List Nat) (hmono : idx.Pairwise (· < ·))
    (a b : Nat) (hab : a < b) (hb : b < idx.length) :
    idx.getD a 0 < idx.getD b 0 := by
  have ha : a < idx.length := Nat.lt_trans hab hb
  have := (List.pairwise_iff_get.mp hmono) ⟨a, ha⟩ ⟨b, hb⟩ hab
  rw [List.getD_eq_getElem _ _ ha, List.getD_eq_getElem _ _ hb]
  simpa using this

theorem pairwise_getD_le (idx : List Nat) (hmono : idx.Pairwise (· < ·))
    (a b : Nat) (hab : a ≤ b) (hb : b < idx.length) :
    idx.getD a 0 ≤ idx.getD b 0 := by
  rcases Nat.eq_or_lt_of_le hab with h | h
  · rw [h]
  · exact Nat.le_of_lt (pairwise_getD_lt idx hmono a b h hb)

/-! ## Membership in the recorded intervals -/

theorem mem_colRecords (idx : List Nat) (names : List String) (msg : String)
    (k : Nat) (u : Bool) (c : Nat) (col : List Bool) (r : TestRecord) :
    r ∈ colRecords idx names msg k u c col ↔
      ∃ p ∈ scan 0 none col, k ≤ p.2 - p.1 + 1 ∧
        r = { varName := if u then "" else names.getD c ""
              startTime := idx.getD p.1 0
              endTime := idx.getD p.2 0
              timesteps := p.2 - p.1 + 1
              errorFlag := msg } := by
  unfold colRecords
  rw [List.mem_filterMap]
  constructor
  · rintro ⟨p, hp, hpr⟩
    by_cases hk : k ≤ p.2 - p.1 + 1
    · rw [if_pos hk] at hpr
      cases hpr
      exact ⟨p, hp, hk, rfl⟩
    · rw [if_neg hk] at hpr
      cases hpr
  · rintro ⟨p, hp, hk, hr⟩
    exact ⟨p, hp, by rw [if_pos hk, hr]⟩

theorem mem_colRecordsFrom (idx : List Nat) (names : List String) (msg : String)
    (k : Nat) (u : Bool) :
    ∀ (cols : List (List Bool)) (c : Nat) (r : TestRecord),
      r ∈ colRecordsFrom idx names msg k u c cols ↔
        ∃ j colb, cols[j]? = some colb ∧
          r ∈ colRecords idx names msg k u (c + j) colb := by
  intro cols
  induction cols with
  | nil =>
    intro c r
    simp [colRecordsFrom]
  | cons col rest ih =>
    intro c r
    unfold colRecordsFrom
    rw [List.mem_append, ih]
    constructor
    · rintro (h | ⟨j, colb, hj, hr⟩)
      · exact ⟨0, col, by simp, by simpa using h⟩
      · exact ⟨j + 1, colb, by simpa using hj, by
          have : c + 1 + j = c + (j + 1) := by omega
          rw [← this]
          exact hr⟩
    · rintro ⟨j, colb, hj, hr⟩
      cases j with
      | zero =>
        simp at hj
        subst hj
        exact Or.inl (by simpa using hr)
      | succ j0 =>
        refine Or.inr ⟨j0, colb, by simpa using hj, ?_⟩
        have : c + 1 + j0 = c + (j0 + 1) := by omega
        rw [this]
        exact hr

/-- Every record produced by `mkRecords` carries the given message. -/
theorem mem_mkRecords_msg (idx : List Nat) (names : List String)
    (m : List (List Bool)) (msg : String) (k : Nat) (u : Bool) :
    ∀ r ∈ mkRecords idx names m msg k u, r.errorFlag = msg := by
  intro r hr
  obtain ⟨q, -, hq⟩ := List.mem_filterMap.mp hr
  by_cases hk : k ≤ q.2.1 - q.1.1 + 1
  · rw [if_pos hk] at hq
    cases hq
    rfl
  · rw [if_neg hk] at hq
    cases hq

theorem applyTF_length (tf : List Bool) (m : BoolMat) :
    (applyTimeFilter tf m).length = m.length := by
  unfold applyTimeFilter
  by_cases h : tf.isEmpty
  · rw [if_pos h]
  · rw [if_neg h, List.length_map]

/-- The heart of the range-check claim: a cell (column `ci`, row `t`) is
covered by some interval recorded from the (time-filtered) comparison mask
`df cmp q` iff the time filter passes at `t` and the cell's value satisfies
the comparison.  Requires well-formed column lengths, a strictly increasing
timestamp index and distinct column names. -/
theorem records_cover_iff (e : Engine) (msg : String) (q : Rat)
    (cmp : Option Rat → Rat → Bool)
    (hwf : ∀ nc ∈ e.cols, nc.2.length = e.index.length)
    (htf : e.tfilter = [] ∨ e.tfilter.length = e.index.length)
    (hmono : e.index.Pairwise (· < ·))
    (hnames : (e.cols.map Prod.fst).Nodup)
    (ci t : Nat) (n : String) (col : DataCol)
    (hci : e.cols[ci]? = some (n, col))
    (ht : t < e.index.length) :
    (∃ r ∈ mkRecords e.index
        ((applyTimeFilter e.tfilter (e.cols.map fun nc =>
          (nc.1, nc.2.map fun v => cmp v q))).map Prod.fst)
        ((applyTimeFilter e.tfilter (e.cols.map fun nc =>
          (nc.1, nc.2.map fun v => cmp v q))).map Prod.snd)
        msg 1 false,
      r.varName = n ∧ r.startTime ≤ e.index.getD t 0 ∧
        e.index.getD t 0 ≤ r.endTime) ↔
    (tfPass e.tfilter t = true ∧ cmp (col.getD t none) q = true) := by
  have hcolmem : (n, col) ∈ e.cols := List.getElem?_mem hci
  have hcl : col.length = e.index.length := hwf (n, col) hcolmem
  have hcilen : ci < e.cols.length := by
    rcases List.getElem?_eq_some_iff.mp hci with ⟨h, -⟩
    exact h
  set bm := e.cols.map (fun nc => (nc.1, nc.2.map fun v => cmp v q)) with hbm
  set lm := applyTimeFilter e.tfilter bm with hlm
  set nms := lm.map Prod.fst with hnms
  set mcols := lm.map Prod.snd with hmcols
  set mcol := tfCol e.tfilter (col.map fun v => cmp v q) with hmcol
  have htfc : e.tfilter = [] ∨ e.tfilter.length = (col.map fun v => cmp v q).length := by
    rcases htf with h | h
    · exact Or.inl h
    · exact Or.inr (by rw [List.length_map, hcl, h])
  have hnms_eq : nms = e.cols.map Prod.fst := by
    rw [hnms, hlm, applyTF_map_fst, hbm, List.map_map]
    rfl
  have hnci : nms[ci]? = some n := by
    rw [hnms_eq, List.getElem?_map, hci]
    rfl
  have hnms_len : nms.length = e.cols.length := by
    rw [hnms_eq, List.length_map]
  have hmcols_len : mcols.length = e.cols.length := by
    rw [hmcols, List.length_map, hlm, applyTF_length, hbm, List.length_map]
  have hmcols_ci : mcols[ci]? = some mcol := by
    rw [hmcols, List.getElem?_map, hlm, applyTF_get, hbm, List.getElem?_map, hci]
    rfl
  have hmcol_len : mcol.length = e.index.length := by
    rw [hmcol, tfCol_length _ _ htfc, List.length_map, hcl]
  have hcell : mcol.getD t false =
      (cmp (col.getD t none) q && tfPass e.tfilter t) := by
    rw [hmcol, tfCol_getD _ _ t (by rw [List.length_map]; omega) htfc,
      map_cmp_getD col _ t (by omega)]
  constructor
  · rintro ⟨r, hr, hvar, hcov1, hcov2⟩
    rw [mkRecords_eq, mem_colRecordsFrom] at hr
    obtain ⟨j, colb, hj, hrc⟩ := hr
    rw [mem_colRecords] at hrc
    obtain ⟨p, hp, -, hreq⟩ := hrc
    subst hreq
    dsimp only at hvar hcov1 hcov2
    rw [Nat.zero_add] at hvar
    have hvar2 : nms.getD j "" = n := hvar
    have hjlen : j < mcols.length := by
      rcases List.getElem?_eq_some_iff.mp hj with ⟨h, -⟩
      exact h
    have hjn : j < nms.length := by omega
    have hnj : nms[j]? = some n := by
      rw [List.getElem?_eq_some_iff]
      exact ⟨hjn, by rw [← hvar2]; exact (List.getD_eq_getElem _ _ hjn).symm⟩
    have hj_eq : j = ci := by
      by_contra hne2
      have hcin : ci < nms.length := by omega
      have hpn : nms.Pairwise (· ≠ ·) := by
        rw [hnms_eq]
        exact hnames
      have hgj : nms.get ⟨j, hjn⟩ = n := by
        have := (List.getElem?_eq_some_iff.mp hnj).2
        simpa using this
      have hgc : nms.get ⟨ci, hcin⟩ = n := by
        have := (List.getElem?_eq_some_iff.mp hnci).2
        simpa using this
      rcases Nat.lt_or_ge j ci with hlt | hge
      · exact (List.pairwise_iff_get.mp hpn ⟨j, hjn⟩ ⟨ci, hcin⟩ hlt)
          (hgj.trans hgc.symm)
      · have hlt2 : ci < j := by omega
        exact (List.pairwise_iff_get.mp hpn ⟨ci, hcin⟩ ⟨j, hjn⟩ hlt2)
          (hgc.trans hgj.symm)
    subst hj_eq
    have hcolb : colb = mcol := by
      rw [hmcols_ci] at hj
      exact (Option.some.inj hj).symm
    subst hcolb
    have hb := scan_bounds mcol 0 none trivial p hp
    have hp2len : p.2 < e.index.length := by
      have := hb.2.1
      omega
    have hp1t : p.1 ≤ t := by
      by_contra hc
      push_neg at hc
      have := pairwise_getD_lt e.index hmono t p.1 hc (by omega)
      omega
    have htp2 : t ≤ p.2 := by
      by_contra hc
      push_neg at hc
      have := pairwise_getD_lt e.index hmono p.2 t hc ht
      omega
    have hct := scan_true mcol 0 none trivial p hp t (Nat.zero_le t) hp1t htp2
    simp only [Nat.sub_zero] at hct
    rw [hcell] at hct
    rcases Bool.and_eq_true_iff.mp hct with ⟨h1, h2⟩
    exact ⟨h2, h1⟩
  · rintro ⟨htp, hcp⟩
    have hcellt : mcol.getD t false = true := by
      rw [hcell, hcp, htp]
      rfl
    obtain ⟨p, hp, hp1, hp2⟩ := scan_cover mcol 0 none trivial t (by omega) hcellt
    simp only [Nat.zero_add] at hp1 hp2
    have hb := scan_bounds mcol 0 none trivial p hp
    refine ⟨{ varName := nms.getD ci ""
              startTime := e.index.getD p.1 0
              endTime := e.index.getD p.2 0
              timesteps := p.2 - p.1 + 1
              errorFlag := msg }, ?_, ?_, ?_, ?_⟩
    · rw [mkRecords_eq, mem_colRecordsFrom]
      refine ⟨ci, mcol, hmcols_ci, ?_⟩
      rw [mem_colRecords]
      refine ⟨p, hp, by omega, ?_⟩
      simp [Nat.zero_add]
    · show nms.getD ci "" = n
      rw [List.getD_eq_getElem?_getD, hnci]
      rfl
    · show e.index.getD p.1 0 ≤ e.index.getD t 0
      exact pairwise_getD_le e.index hmono p.1 t hp1 ht
    · show e.index.getD t 0 ≤ e.index.getD p.2 0
      have : p.2 < e.index.length := by
        have := hb.2.1
        omega
      exact pairwise_getD_le e.index hmono t p.2 hp2 this

/-- The lower-bound and upper-bound messages can never collide (they differ
at the comparison sign). -/
theorem lowerMsg_ne_upperMsg (a b : Rat) :
    lowerMsg "Data" a ≠ upperMsg "Data" b := by
  unfold lowerMsg upperMsg
  intro h
  have h2 := congrArg String.data h
  simp only [String.data_append] at h2
  have h3 := congrArg (fun l => l.get? 5) h2
  simp at h3

/-- Claim C6: in `check_range`, a value exactly equal to the lower or upper
bound never fails (the comparisons are strict `<` and `>`), a value strictly
below the lower bound or strictly above the upper bound always fails when not
suppressed by the time filter, and the two bounds are checked independently
with distinct messages.  Stated as: a cell is covered by a lower-branch
(resp. upper-branch) interval iff the time filter passes and the value is
strictly below (resp. strictly above) the bound — so an at-bound value is
covered by neither branch's intervals. -/
theorem C6_range_strict (e : Engine) (lo hi : Rat) (ci t : Nat) (n : String)
    (col : DataCol) (v : Rat)
    (hwf : ∀ nc ∈ e.cols, nc.2.length = e.index.length)
    (htf : e.tfilter = [] ∨ e.tfilter.length = e.index.length)
    (hmono : e.index.Pairwise (· < ·))
    (hnames : (e.cols.map Prod.fst).Nodup)
    (hne : dfEmpty e = false)
    (hci : e.cols[ci]? = some (n, col))
    (ht : t < e.index.length)
    (hcell : col.getD t none = some v) :
    ∃ e2 lowNews upNews,
      check_range e [PyVal.num lo, PyVal.num hi] none 1 =
        Except.ok (e2, [PyVal.num lo, PyVal.num hi]) ∧
      e2.test_results = (e.test_results ++ lowNews) ++ upNews ∧
      (∀ r ∈ lowNews, r.errorFlag = lowerMsg "Data" lo) ∧
      (∀ r ∈ upNews, r.errorFlag = upperMsg "Data" hi) ∧
      lowerMsg "Data" lo ≠ upperMsg "Data" hi ∧
      ((∃ r ∈ lowNews, r.varName = n ∧ r.startTime ≤ e.index.getD t 0 ∧
          e.index.getD t 0 ≤ r.endTime) ↔
        (tfPass e.tfilter t = true ∧ v < lo)) ∧
      ((∃ r ∈ upNews, r.varName = n ∧ r.startTime ≤ e.index.getD t 0 ∧
          e.index.getD t 0 ≤ r.endTime) ↔
        (tfPass e.tfilter t = true ∧ hi < v)) := by
  have hsd : setupData e none = some e.cols := by
    unfold setupData
    rw [if_neg (by simp [hne])]
  set bmL := e.cols.map (fun nc => (nc.1, nc.2.map fun v2 => optLt v2 lo)) with hbmL
  set bmU := e.cols.map (fun nc => (nc.1, nc.2.map fun v2 => optGt v2 hi)) with hbmU
  set e1 := appendTestResults e e.index bmL (lowerMsg "Data" lo) 1 false with he1
  set e2 := appendTestResults e1 e1.index bmU (upperMsg "Data" hi) 1 false with he2
  set lowNews := mkRecords e.index
    ((applyTimeFilter e.tfilter bmL).map Prod.fst)
    ((applyTimeFilter e.tfilter bmL).map Prod.snd) (lowerMsg "Data" lo) 1 false
    with hlowNews
  set upNews := mkRecords e.index
    ((applyTimeFilter e.tfilter bmU).map Prod.fst)
    ((applyTimeFilter e.tfilter bmU).map Prod.snd) (upperMsg "Data" hi) 1 false
    with hupNews
  have hcr : check_range e [PyVal.num lo, PyVal.num hi] none 1 =
      Except.ok (e2, [PyVal.num lo, PyVal.num hi]) := by
    unfold check_range
    rw [hsd]
    rfl
  have hres : e2.test_results = (e.test_results ++ lowNews) ++ upNews := by
    rw [he2, appendTestResults_eq, he1, appendTestResults_eq]
  refine ⟨e2, lowNews, upNews, hcr, hres, ?_, ?_, lowerMsg_ne_upperMsg lo hi, ?_, ?_⟩
  · intro r hr
    exact mem_mkRecords_msg _ _ _ _ _ _ r hr
  · intro r hr
    exact mem_mkRecords_msg _ _ _ _ _ _ r hr
  · have hiff := records_cover_iff e (lowerMsg "Data" lo) lo optLt
      hwf htf hmono hnames ci t n col hci ht
    refine hiff.trans ?_
    rw [hcell]
    simp [optLt]
  · have hiff := records_cover_iff e (upperMsg "Data" hi) hi optGt
      hwf htf hmono hnames ci t n col hci ht
    refine hiff.trans ?_
    rw [hcell]
    simp [optGt]

/-- Claim C6, instantiated: on `A = [1, 20, 2]` with bounds `[0, 10]`, the
cell at `t = 1` (value 20) is covered by an upper-bound interval, and the
recorded messages are the distinct lower/upper strings. -/
theorem C6_range_strict_witness :
    ∃ e2 lowNews upNews,
      check_range engW [PyVal.num 0, PyVal.num 10] none 1 =
        Except.ok (e2, [PyVal.num 0, PyVal.num 10]) ∧
      e2.test_results = (engW.test_results ++ lowNews) ++ upNews ∧
      ((∃ r ∈ upNews, r.varName = "A" ∧ r.startTime ≤ engW.index.getD 1 0 ∧
          engW.index.getD 1 0 ≤ r.endTime) ↔
        (tfPass engW.tfilter 1 = true ∧ (10 : Rat) < 20)) := by
  obtain ⟨e2, lowNews, upNews, h1, h2, -, -, -, -, h7⟩ :=
    C6_range_strict engW 0 10 0 1 "A" [some 1, some 20, some 2] 20
      (by decide) (Or.inl rfl) (by decide) (by decide) rfl rfl (by decide) rfl
  exact ⟨e2, lowNews, upNews, h1, h2, h7⟩

end Pecos
